import Mathlib

/-!
Verification of the IntSat conflict-analysis core of the Pumpkin CP solver.

This file gives a shallow embedding of the relevant Rust sources:

* pumpkin-solver/src/engine/conflict_analysis/resolvers/intsat_conflict_resolver.rs
  (apply_cut, resolve_conflict, div_ceil, gcd)
* pumpkin-solver/src/engine/cp/propagation/linear_less_or_equal.rs
  (LinearLessOrEqual: lb_lhs, slack, is_conflicting, is_propagating, overflows)
* pumpkin-lib/src/basic_types/variables.rs (AffineView and its bound operations)
* pumpkin-lib/src/engine/cp/cp_engine_data_structures.rs (watcher notification)
* pumpkin-lib/src/engine/cp/propagator_queue.rs (PropagatorQueue)

Machine integers (Rust i32) are modelled as unbounded Int together with
explicit range checks exactly where the source uses checked arithmetic;
Rust's truncating division and remainder are Int.tdiv and Int.tmod.
DomainId values are modelled as Nat.
-/

namespace Pumpkin

/-- Smallest i32 value. -/
def i32Min : Int := -(2 ^ 31)

/-- Largest i32 value. -/
def i32Max : Int := 2 ^ 31 - 1

/-- Whether an integer is representable as an i32. -/
def inI32 (x : Int) : Prop := i32Min ≤ x ∧ x ≤ i32Max

instance inI32.decidable (x : Int) : Decidable (inI32 x) := by
  unfold inI32; infer_instance

/-- Model of Rust's i32::checked_mul: the product, or none on overflow. -/
def checked_mul (a b : Int) : Option Int :=
  if inI32 (a * b) then some (a * b) else none

/-- Model of Rust's i32::checked_add: the sum, or none on overflow. -/
def checked_add (a b : Int) : Option Int :=
  if inI32 (a + b) then some (a + b) else none

/-- Translation of div_ceil from intsat_conflict_resolver.rs: the source binds
d = num / div and r = num % div (Rust truncating division and remainder) and
increments d when the remainder is nonzero with the sign of the divisor. -/
def div_ceil (num div : Int) : Int :=
  if (num.tmod div > 0 ∧ div > 0) ∨ (num.tmod div < 0 ∧ div < 0)
  then num.tdiv div + 1
  else num.tdiv div

/-- Translation of the local div_floor of AffineView::invert in
pumpkin-lib/src/basic_types/variables.rs (the local div_ceil there is
textually identical to the resolver's div_ceil above). -/
def div_floor (num div : Int) : Int :=
  if (num.tmod div > 0 ∧ div < 0) ∨ (num.tmod div < 0 ∧ div > 0)
  then num.tdiv div - 1
  else num.tdiv div

/-- Two's complement 32-bit pattern of an i32 value, as a natural number. -/
def bits32 (x : Int) : Nat := (x % (2 ^ 32)).toNat

/-- Signed i32 value of a 32-bit pattern. -/
def ofBits32 (n : Nat) : Int := if n < 2 ^ 31 then (n : Int) else (n : Int) - 2 ^ 32

/-- Model of the i32 bitwise or appearing in the gcd. -/
def i32or (a b : Int) : Int := ofBits32 (bits32 a ||| bits32 b)

/-- Halving loop behind the trailing-zero count, with structural fuel so
that it evaluates by kernel reduction. -/
def ctz_go (fuel n : Nat) : Nat :=
  match fuel with
  | 0 => 0
  | fuel + 1 => if n % 2 = 1 ∨ n = 0 then 0 else ctz_go fuel (n / 2) + 1

/-- Trailing zero count of a natural number (0 on odd or zero input). -/
def ctz (n : Nat) : Nat := ctz_go n n

/-- Model of i32::trailing_zeros: trailing zeros of the 32-bit pattern,
32 for the value 0. -/
def trailing_zeros (x : Int) : Nat :=
  if bits32 x = 0 then 32 else ctz (bits32 x)

/-- Subtract-and-shift loop of the binary gcd (the Rust while loop, with
explicit fuel; both arguments are odd and positive at every entry). -/
def gcd_loop (fuel m n : Nat) : Nat :=
  match fuel with
  | 0 => m
  | fuel + 1 =>
    if m = n then m
    else if m > n then gcd_loop fuel ((m - n) >>> ctz (m - n)) n
    else gcd_loop fuel m ((n - m) >>> ctz (n - m))

/-- Translation of gcd from intsat_conflict_resolver.rs: zero handling via
the bitwise or, the i32::MIN special case, then the binary gcd on the odd
parts of the absolute values, shifted back by the common power of two. -/
def gcd (a b : Int) : Int :=
  if a = 0 ∨ b = 0 then |i32or a b|
  else if a = i32Min ∨ b = i32Min then
    |ofBits32 ((1 <<< trailing_zeros (i32or a b)) % 2 ^ 32)|
  else
    ((gcd_loop (a.natAbs + b.natAbs)
        (a.natAbs >>> ctz a.natAbs) (b.natAbs >>> ctz b.natAbs))
      <<< trailing_zeros (i32or a b) : Nat)

/-- DomainId: opaque u32 handle of a decision variable. -/
abbrev DomainId := Nat

/-- Linear inequality sum of coefficient times variable at most rhs. -/
structure LinearLessOrEqual where
  lhs : List (DomainId × Int)
  rhs : Int
deriving DecidableEq

/-- Translation of LinearLessOrEqual::contains_variable. -/
def contains_variable (c : LinearLessOrEqual) (v : DomainId) : Bool :=
  (c.lhs.find? (fun p => p.1 == v)).isSome

/-- Translation of LinearLessOrEqual::find_variable_scale. -/
def find_variable_scale (c : LinearLessOrEqual) (v : DomainId) : Option Int :=
  (c.lhs.find? (fun p => p.1 == v)).map (fun p => p.2)

/-- Lookup in the association list that models the HashMap new_lhs. -/
def alLookup (m : List (DomainId × Int)) (k : DomainId) : Option Int :=
  (m.find? (fun p => p.1 == k)).map (fun p => p.2)

/-- Key-membership test for the association list (HashMap entry occupancy). -/
def alContains (m : List (DomainId × Int)) (k : DomainId) : Bool :=
  (m.find? (fun p => p.1 == k)).isSome

/-- Insert-or-update for the association list (HashMap entry or_insert plus
assignment). -/
def alSet (m : List (DomainId × Int)) (k : DomainId) (v : Int) :
    List (DomainId × Int) :=
  match m with
  | [] => [(k, v)]
  | (k', v') :: rest =>
    if k' = k then (k', v) :: rest else (k', v') :: alSet rest k v

/-- Removal for the association list (HashMap remove). -/
def alRemove (m : List (DomainId × Int)) (k : DomainId) :
    List (DomainId × Int) :=
  match m with
  | [] => []
  | (k', v') :: rest =>
    if k' = k then rest else (k', v') :: alRemove rest k

/-- Coefficient of a variable in a lhs, 0 when absent. -/
def coef (lhs : List (DomainId × Int)) (w : DomainId) : Int :=
  (alLookup lhs w).getD 0

/-- First loop of apply_cut: scale every coefficient of the conflicting
constraint by mult_c1 with checked i32 multiplication, building new_lhs. -/
def scale_lhs (mult : Int) : List (DomainId × Int) →
    Option (List (DomainId × Int))
  | [] => some []
  | (id, s) :: rest =>
    match checked_mul mult s with
    | none => none
    | some ns =>
      match scale_lhs mult rest with
      | none => none
      | some tail => some ((id, ns) :: tail)

/-- Second loop of apply_cut: fold the reason's coefficients (scaled by
mult_c2 with checked arithmetic) into new_lhs, dropping entries whose summed
coefficient becomes 0 and clearing skip_early_backjump on a clash with a
variable other than var. -/
def add_lhs (mult : Int) (var : DomainId) :
    List (DomainId × Int) → List (DomainId × Int) → Bool →
    Option (List (DomainId × Int) × Bool)
  | m, [], skip => some (m, skip)
  | m, (id, s) :: rest, skip =>
    match checked_mul mult s with
    | none => none
    | some ns =>
      match checked_add ((alLookup m id).getD 0) ns with
      | none => none
      | some ncurr =>
        add_lhs mult var
          (if ncurr = 0 then alRemove m id else alSet m id ncurr) rest
          (if alContains m id && id != var then false else skip)

/-- Result classification of apply_cut. -/
inductive CutResult where
  | nothingLearned : CutResult
  | overflow : CutResult
  | contradiction : CutResult
  | success (inequality : LinearLessOrEqual) (skip_early_backjump : Bool) :
      CutResult
deriving DecidableEq

/-- Iterator reduce over the coefficient values with the binary gcd
(None on an empty list, matching Iterator::reduce). -/
def reduce_gcd : List Int → Option Int
  | [] => none
  | x :: rest => some (rest.foldl (fun a b => gcd a b) x)

/-- Ordered insertion by DomainId. -/
def insertById (p : DomainId × Int) : List (DomainId × Int) →
    List (DomainId × Int)
  | [] => [p]
  | q :: rest => if p.1 ≤ q.1 then p :: q :: rest else q :: insertById p rest

/-- Deterministic stand-in for sorted_by_key over the DomainId: the HashMap
iteration order is unspecified, the final lhs is sorted by id (insertion
sort; all keys are distinct). -/
def sortById : List (DomainId × Int) → List (DomainId × Int)
  | [] => []
  | p :: rest => insertById p (sortById rest)

/-- Multiplier applied to the conflicting constraint:
c2_scale.abs() / gcd(c1_scale.abs(), c2_scale.abs()). -/
def cut_mult_c1 (c1_scale c2_scale : Int) : Int :=
  |c2_scale|.tdiv (gcd |c1_scale| |c2_scale|)

/-- Multiplier applied to the reason constraint:
c1_scale.abs() / gcd(c1_scale.abs(), c2_scale.abs()). -/
def cut_mult_c2 (c1_scale c2_scale : Int) : Int :=
  |c1_scale|.tdiv (gcd |c1_scale| |c2_scale|)

/-- Normalization divisor of apply_cut: the gcd of all summed coefficients
(via Iterator::reduce, falling back to the rhs for an empty lhs) folded with
the rhs. -/
def norm_gcd (new_lhs : List (DomainId × Int)) (new_rhs : Int) : Int :=
  gcd ((reduce_gcd (new_lhs.map (fun p => p.2))).getD new_rhs) new_rhs

/-- Translation of IntSatConflictResolver::apply_cut.  The outer Option
models the panics of the two unwrap calls on find_variable_scale; the two
pumpkin assert macros are debug assertions and do not alter release
behaviour. -/
def apply_cut (var : DomainId) (c1 c2 : LinearLessOrEqual) :
    Option CutResult :=
  match find_variable_scale c1 var, find_variable_scale c2 var with
  | some c1_scale, some c2_scale =>
    let mult_c1 := cut_mult_c1 c1_scale c2_scale
    let mult_c2 := cut_mult_c2 c1_scale c2_scale
    match scale_lhs mult_c1 c1.lhs with
    | none => some .overflow
    | some m0 =>
      match add_lhs mult_c2 var m0 c2.lhs true with
      | none => some .overflow
      | some (new_lhs, skip) =>
        match checked_mul c1.rhs mult_c1 with
        | none => some .overflow
        | some r1 =>
          match checked_mul c2.rhs mult_c2 with
          | none => some .overflow
          | some r2 =>
            match checked_add r1 r2 with
            | none => some .overflow
            | some new_rhs =>
              if new_lhs.length = 0 then
                if new_rhs < 0 then some .contradiction
                else some .nothingLearned
              else
                some (.success
                  { lhs := sortById
                      (new_lhs.map
                        (fun p => (p.1, div_ceil p.2 (norm_gcd new_lhs new_rhs))))
                    rhs := div_ceil new_rhs (norm_gcd new_lhs new_rhs) }
                  skip)
  | _, _ => none

/-- Wellformedness of a linear inequality, following the data model: no
duplicate DomainId, no zero coefficients, i32 values.  The coefficient
bound excludes i32::MIN, whose Rust abs() panics in debug builds. -/
def WF (c : LinearLessOrEqual) : Prop :=
  (c.lhs.map Prod.fst).Nodup ∧
  (∀ p ∈ c.lhs, p.2 ≠ 0 ∧ p.2.natAbs < 2 ^ 31) ∧ inI32 c.rhs

instance WF.decidable (c : LinearLessOrEqual) : Decidable (WF c) := by
  unfold WF
  infer_instance

/-- Bound store: per-variable lower/upper bound at every trail position. -/
structure Assignments where
  lb : DomainId → Nat → Int
  ub : DomainId → Nat → Int

/-- Lower bound of var.scaled(scale) at a trail position (AffineView with
offset 0: scale * ub for a negative scale, scale * lb otherwise). -/
def scaled_lb (asg : Assignments) (pos : Nat) (v : DomainId) (scale : Int) :
    Int :=
  if scale < 0 then scale * asg.ub v pos else scale * asg.lb v pos

/-- Upper bound of var.scaled(scale) at a trail position. -/
def scaled_ub (asg : Assignments) (pos : Nat) (v : DomainId) (scale : Int) :
    Int :=
  if scale < 0 then scale * asg.lb v pos else scale * asg.ub v pos

/-- Translation of LinearLessOrEqual::lb_lhs. -/
def lb_lhs (c : LinearLessOrEqual) (asg : Assignments) (pos : Nat) : Int :=
  (c.lhs.map (fun p => scaled_lb asg pos p.1 p.2)).sum

/-- Translation of LinearLessOrEqual::slack. -/
def slack (c : LinearLessOrEqual) (asg : Assignments) (pos : Nat) : Int :=
  c.rhs - lb_lhs c asg pos

/-- Translation of LinearLessOrEqual::is_conflicting. -/
def is_conflicting (c : LinearLessOrEqual) (asg : Assignments) (pos : Nat) :
    Bool :=
  slack c asg pos < 0

/-- Translation of LinearLessOrEqual::is_propagating. -/
def is_propagating (c : LinearLessOrEqual) (asg : Assignments) (pos : Nat) :
    Bool :=
  c.lhs.any (fun p =>
    scaled_ub asg pos p.1 p.2 >
      c.rhs - (lb_lhs c asg pos - scaled_lb asg pos p.1 p.2))

/-- Translation of LinearLessOrEqualLhs::lb_lhs_overflows: some scaled
bound product leaves i32. -/
def lb_lhs_overflows (c : LinearLessOrEqual) (asg : Assignments) (pos : Nat) :
    Bool :=
  c.lhs.any (fun p =>
    ¬inI32 (p.2 * (if p.2 < 0 then asg.ub p.1 pos else asg.lb p.1 pos)))

/-- Translation of LinearLessOrEqual::overflows. -/
def overflows (c : LinearLessOrEqual) (asg : Assignments) (pos : Nat) :
    Bool :=
  lb_lhs_overflows c asg pos ||
    c.lhs.any (fun p =>
      ¬inI32 (slack c asg pos + scaled_lb asg pos p.1 p.2))

/-- Predicate forms of the data model (modelled from the spec: bound and
(dis)equality atoms plus the trivial constants; only the constants appear
in the resolver). -/
inductive Predicate where
  | triviallyTrue : Predicate
  | triviallyFalse : Predicate
  | lowerBound (x : DomainId) (v : Int) : Predicate
  | upperBound (x : DomainId) (v : Int) : Predicate
  | equal (x : DomainId) (v : Int) : Predicate
  | notEqual (x : DomainId) (v : Int) : Predicate
deriving DecidableEq

/-- Outcome payloads of conflict resolution. -/
inductive ConflictResolveResult where
  | nogood (predicates : List Predicate) (backjump_level : Nat) :
      ConflictResolveResult
  | constraint (c : LinearLessOrEqual) (backjump_level : Nat) :
      ConflictResolveResult
deriving DecidableEq

/-- Result of the resolver: either a learned result or delegation to the
resolution fallback (apply_fallback with its debug message). -/
inductive ResolveOutcome where
  | result (r : ConflictResolveResult) : ResolveOutcome
  | fallback (reason : String) : ResolveOutcome
deriving DecidableEq

/-- Trail entry as seen by the resolver: the predicate's domain and the
optional reason reference. -/
structure TrailEntry where
  var : DomainId
  reason : Option Nat
deriving DecidableEq

/-- Abstract resolver context: the parts of ConflictAnalysisContext that
resolve_conflict reads.  initial_constraint condenses the conflict-info
match of lines 150-184 (the linear explanation of the conflicting
propagator, none when only the resolution fallback applies);
reason_explanation is propagator.linear_inequality_explanation() for the
propagator of a reason reference; trail_pos_for_level is
get_trail_position_for_decision_level. -/
structure Context where
  is_completing_proof : Bool
  initial_constraint : Option LinearLessOrEqual
  decision_level : Nat
  num_trail_entries : Nat
  trail : Nat → TrailEntry
  reason_explanation : Nat → Option LinearLessOrEqual
  assignments : Assignments
  trail_pos_for_level : Nat → Nat

/-- Result of the inner scanning loop of resolve_conflict. -/
inductive ScanResult where
  | fallbackDecision : ScanResult
  | found (entry : TrailEntry) (next_index : Nat) : ScanResult
deriving DecidableEq

/-- Inner loop of resolve_conflict: walk the trail backwards to the newest
entry of a variable of the conflicting constraint at which it is still
conflicting.  The index is decremented before break/continue, so reaching
index 0 with another step pending is a usize underflow panic, modelled as
none. -/
def find_trail_entry (ctx : Context) (c : LinearLessOrEqual) :
    Nat → Option ScanResult
  | 0 =>
    if (ctx.trail 0).reason.isNone then some .fallbackDecision else none
  | i + 1 =>
    if (ctx.trail (i + 1)).reason.isNone then some .fallbackDecision
    else if contains_variable c (ctx.trail (i + 1)).var = false then
      find_trail_entry ctx c i
    else if is_conflicting c ctx.assignments (i + 1) then
      some (.found (ctx.trail (i + 1)) i)
    else
      find_trail_entry ctx c i

/-- Result of the early-backjump scan. -/
inductive BackjumpResult where
  | fallbackOverflow : BackjumpResult
  | learned (c : LinearLessOrEqual) (level : Nat) : BackjumpResult
  | nothingFound : BackjumpResult
deriving DecidableEq

/-- Early-backjump scan of resolve_conflict: for each candidate level (in
increasing order), evaluate the constraint at the trail position of that
level minus one; stop at the first level where it is propagating or
conflicting, falling back on an i32 overflow of the evaluation.  A zero
trail position is a usize underflow panic, modelled as none. -/
def early_backjump_loop (ctx : Context) (c : LinearLessOrEqual) :
    Nat → Nat → Option BackjumpResult
  | _, 0 => some .nothingFound
  | level, remaining + 1 =>
    match ctx.trail_pos_for_level level with
    | 0 => none
    | btl + 1 =>
      if overflows c ctx.assignments btl then some .fallbackOverflow
      else if is_propagating c ctx.assignments btl ||
          is_conflicting c ctx.assignments btl then
        some (.learned c level)
      else early_backjump_loop ctx c (level + 1) remaining

/-- The for loop over backjump_level in 0..current_decision_level. -/
def find_early_backjump (ctx : Context) (c : LinearLessOrEqual) :
    Option BackjumpResult :=
  early_backjump_loop ctx c 0 ctx.decision_level

/-- One iteration of the outer loop of resolve_conflict: either a final
outcome or the next conflicting constraint and trail index. -/
inductive StepResult where
  | done (r : ResolveOutcome) : StepResult
  | next (c : LinearLessOrEqual) (trail_index : Nat) : StepResult
deriving DecidableEq

/-- Body of the outer loop of resolve_conflict: scan for the trail entry,
fetch the reason's linear explanation, check the signs, apply the cut and
dispatch on its result, then run the early-backjump scan unless
skip_early_backjump is set. -/
def resolve_step (ctx : Context) (c : LinearLessOrEqual) (trail_index : Nat) :
    Option StepResult :=
  match find_trail_entry ctx c trail_index with
  | none => none
  | some .fallbackDecision => some (.done (.fallback "Decision reached"))
  | some (.found entry next_index) =>
    match entry.reason with
    | none => none
    | some reason_ref =>
      match ctx.reason_explanation reason_ref with
      | none => some (.done (.fallback "Detected nogoods"))
      | some prop_constraint_expl =>
        match find_variable_scale c entry.var,
            find_variable_scale prop_constraint_expl entry.var with
        | some c1_scale, some c2_scale =>
          if (0 < c1_scale) ↔ (0 < c2_scale) then
            some (.next c next_index)
          else
            match apply_cut entry.var c prop_constraint_expl with
            | none => none
            | some .nothingLearned =>
              some (.done (.fallback "Nothing learned"))
            | some .overflow => some (.done (.fallback "Overflow"))
            | some .contradiction =>
              some (.done (.result (.nogood [Predicate.triviallyTrue] 0)))
            | some (.success new_c skip) =>
              if overflows new_c ctx.assignments next_index then
                some (.done (.fallback "Overflow"))
              else if is_conflicting new_c ctx.assignments next_index = false
              then some (.done (.fallback "Not conflicting"))
              else if skip then some (.next new_c next_index)
              else
                match find_early_backjump ctx new_c with
                | none => none
                | some .fallbackOverflow => some (.done (.fallback "Overflow"))
                | some (.learned cc level) =>
                  some (.done (.result (.constraint cc level)))
                | some .nothingFound => some (.next new_c next_index)
        | _, _ => none

/-- Outer loop of resolve_conflict with fuel (the trail index strictly
decreases across iterations, so enough fuel always exists). -/
def resolve_loop (ctx : Context) :
    Nat → LinearLessOrEqual → Nat → Option ResolveOutcome
  | 0, _, _ => none
  | fuel + 1, c, ti =>
    match resolve_step ctx c ti with
    | none => none
    | some (.done r) => some r
    | some (.next c' ti') => resolve_loop ctx fuel c' ti'

/-- Translation of IntSatConflictResolver::resolve_conflict over the
abstract context. -/
def resolve_conflict (ctx : Context) (fuel : Nat) : Option ResolveOutcome :=
  if ctx.is_completing_proof then some (.fallback "Completing proof")
  else
    match ctx.initial_constraint with
    | none => some (.fallback "No linear inequality explanation")
    | some c =>
      match ctx.num_trail_entries with
      | 0 => none
      | n + 1 => resolve_loop ctx fuel c n

/-- Modelled from the spec: AssignmentsInteger (its source file is not in
the repository snapshot) as a lower and upper bound per DomainId. -/
structure AssignmentsInteger where
  lb : DomainId → Int
  ub : DomainId → Int

/-- Modelled from the spec: AssignmentsInteger::get_lower_bound. -/
def get_lower_bound (asg : AssignmentsInteger) (x : DomainId) : Int :=
  asg.lb x

/-- Modelled from the spec: AssignmentsInteger::get_upper_bound. -/
def get_upper_bound (asg : AssignmentsInteger) (x : DomainId) : Int :=
  asg.ub x

/-- Modelled from the spec: tighten_lower_bound(x, v) errors with
EmptyDomain (none) when v > ub(x), updates lb(x) when v > lb(x), and
otherwise is a no-op. -/
def tighten_lb (asg : AssignmentsInteger) (x : DomainId) (v : Int) :
    Option AssignmentsInteger :=
  if v > asg.ub x then none
  else if v > asg.lb x then
    some ⟨fun y => if y = x then v else asg.lb y, asg.ub⟩
  else some asg

/-- Modelled from the spec: tighten_upper_bound(x, v), symmetric to
tighten_lower_bound. -/
def tighten_ub (asg : AssignmentsInteger) (x : DomainId) (v : Int) :
    Option AssignmentsInteger :=
  if v < asg.lb x then none
  else if v < asg.ub x then
    some ⟨asg.lb, fun y => if y = x then v else asg.ub y⟩
  else some asg

/-- Translation of AffineView (y = scale * inner + offset) over a DomainId
inner variable. -/
structure AffineView where
  inner : DomainId
  scale : Int
  offset : Int

/-- The two rounding modes of AffineView::invert. -/
inductive Rounding where
  | up : Rounding
  | down : Rounding

/-- Translation of AffineView::invert (its local div_ceil and div_floor
are the definitions above). -/
def AffineView.invert (av : AffineView) (value : Int) (r : Rounding) : Int :=
  match r with
  | .up => div_ceil (value - av.offset) av.scale
  | .down => div_floor (value - av.offset) av.scale

/-- Translation of AffineView::map. -/
def AffineView.affineMap (av : AffineView) (value : Int) : Int :=
  av.scale * value + av.offset

/-- Translation of AffineView::lower_bound. -/
def AffineView.lower_bound (av : AffineView) (asg : AssignmentsInteger) :
    Int :=
  if av.scale < 0 then av.affineMap (get_upper_bound asg av.inner)
  else av.affineMap (get_lower_bound asg av.inner)

/-- Translation of AffineView::upper_bound. -/
def AffineView.upper_bound (av : AffineView) (asg : AssignmentsInteger) :
    Int :=
  if av.scale < 0 then av.affineMap (get_lower_bound asg av.inner)
  else av.affineMap (get_upper_bound asg av.inner)

/-- Translation of AffineView::set_upper_bound: invert with rounding Down,
then tighten the inner upper bound when scale >= 0, the inner lower bound
otherwise. -/
def AffineView.set_upper_bound (av : AffineView) (asg : AssignmentsInteger)
    (value : Int) : Option AssignmentsInteger :=
  if av.scale ≥ 0 then tighten_ub asg av.inner (av.invert value .down)
  else tighten_lb asg av.inner (av.invert value .down)

/-- Translation of AffineView::set_lower_bound: invert with rounding Up,
then tighten the inner lower bound when scale >= 0, the inner upper bound
otherwise. -/
def AffineView.set_lower_bound (av : AffineView) (asg : AssignmentsInteger)
    (value : Int) : Option AssignmentsInteger :=
  if av.scale ≥ 0 then tighten_lb asg av.inner (av.invert value .up)
  else tighten_ub asg av.inner (av.invert value .up)

/-- Watcher classes of the notification dispatch. -/
inductive DomainEvent where
  | lowerBound : DomainEvent
  | upperBound : DomainEvent
  | assign : DomainEvent
  | hole : DomainEvent
deriving DecidableEq

/-- Modelled from the spec: make_assignment_no_notify tightens both bounds
to the value (EmptyDomain, none, when the value is outside the domain). -/
def make_assignment_no_notify (asg : AssignmentsInteger) (x : DomainId)
    (v : Int) : Option AssignmentsInteger :=
  match tighten_lb asg x v with
  | none => none
  | some a => tighten_ub a x v

/-- Translation of CPEngineDataStructures::tighten_lower_bound: run the
no-notify tighten (modelled from the spec) and, on success, notify the
LowerBound watchers; the returned list is the watcher classes notified. -/
def tighten_lower_bound (asg : AssignmentsInteger) (x : DomainId) (v : Int) :
    Option AssignmentsInteger × List DomainEvent :=
  match tighten_lb asg x v with
  | none => (none, [])
  | some a => (some a, [DomainEvent.lowerBound])

/-- Translation of CPEngineDataStructures::tighten_upper_bound. -/
def tighten_upper_bound (asg : AssignmentsInteger) (x : DomainId) (v : Int) :
    Option AssignmentsInteger × List DomainEvent :=
  match tighten_ub asg x v with
  | none => (none, [])
  | some a => (some a, [DomainEvent.upperBound])

/-- Translation of CPEngineDataStructures::make_assignment: on success,
notify LowerBound when the lower bound moved, UpperBound when the upper
bound moved, and always the Assign watchers. -/
def make_assignment (asg : AssignmentsInteger) (x : DomainId) (v : Int) :
    Option AssignmentsInteger × List DomainEvent :=
  match make_assignment_no_notify asg x v with
  | none => (none, [])
  | some a =>
    (some a,
      (if get_lower_bound asg x < get_lower_bound a x then
        [DomainEvent.lowerBound] else []) ++
      (if get_upper_bound a x < get_upper_bound asg x then
        [DomainEvent.upperBound] else []) ++
      [DomainEvent.assign])

/-- PropagatorId (a numeric index). -/
abbrev PropagatorId := Nat

/-- Peek of the BinaryHeap of Reverse priorities: the minimum entry. -/
def heapMin : List Nat → Option Nat
  | [] => none
  | x :: rest =>
    match heapMin rest with
    | none => some x
    | some m => some (min x m)

/-- Pop of the BinaryHeap of Reverse priorities: remove one minimum entry. -/
def heapPopMin (h : List Nat) : List Nat :=
  match heapMin h with
  | none => h
  | some m => h.erase m

/-- Translation of PropagatorQueue: one FIFO queue per priority (front =
next to pop), the set of enqueued propagators, and the multiset of
priorities with a nonempty queue (the BinaryHeap). -/
structure PropagatorQueue where
  queues : List (List PropagatorId)
  present_propagators : List PropagatorId
  present_priorities : List Nat

/-- Translation of PropagatorQueue::is_propagator_enqueued. -/
def is_propagator_enqueued (pq : PropagatorQueue) (id : PropagatorId) :
    Bool :=
  pq.present_propagators.contains id

/-- Translation of PropagatorQueue::enqueue_propagator (the Rust asserts
priority < queues.len()): a no-op when the propagator is present; else
record the priority when its queue was empty, push the propagator to the
back of that queue and mark it present. -/
def enqueue_propagator (pq : PropagatorQueue) (id : PropagatorId)
    (priority : Nat) : PropagatorQueue :=
  if is_propagator_enqueued pq id then pq
  else
    { queues :=
        pq.queues.set priority (pq.queues.getD priority [] ++ [id]),
      present_propagators := id :: pq.present_propagators,
      present_priorities :=
        if (pq.queues.getD priority []).isEmpty then
          priority :: pq.present_priorities
        else pq.present_priorities }

/-- Translation of PropagatorQueue::pop (none models the unwrap panics on
an empty queue): take the front of the queue of the top (lowest) priority,
unmark it, and drop the priority when its queue becomes empty. -/
def queuePop (pq : PropagatorQueue) :
    Option (PropagatorId × PropagatorQueue) :=
  match heapMin pq.present_priorities with
  | none => none
  | some top =>
    match pq.queues.getD top [] with
    | [] => none
    | id :: rest =>
      some (id,
        { queues := pq.queues.set top rest,
          present_propagators := pq.present_propagators.erase id,
          present_priorities :=
            if rest.isEmpty then heapPopMin pq.present_priorities
            else pq.present_priorities })

/-- Well-formedness of the queue state: each per-priority queue has no
duplicates, distinct priorities hold disjoint queues, the present set is
exactly the propagators in some queue, the priority heap is exactly the
priorities with a nonempty queue, and the set and heap have no
duplicates. -/
def QWF (pq : PropagatorQueue) : Prop :=
  (∀ p, p < pq.queues.length → (pq.queues.getD p []).Nodup) ∧
  (∀ p, p < pq.queues.length → ∀ q, q < pq.queues.length → p ≠ q →
    ∀ id ∈ pq.queues.getD p [], id ∉ pq.queues.getD q []) ∧
  (∀ id ∈ pq.present_propagators,
    ∃ p, p < pq.queues.length ∧ id ∈ pq.queues.getD p []) ∧
  (∀ p, p < pq.queues.length →
    ∀ id ∈ pq.queues.getD p [], id ∈ pq.present_propagators) ∧
  (∀ p ∈ pq.present_priorities,
    p < pq.queues.length ∧ pq.queues.getD p [] ≠ []) ∧
  (∀ p, p < pq.queues.length → pq.queues.getD p [] ≠ [] →
    p ∈ pq.present_priorities) ∧
  pq.present_propagators.Nodup ∧
  pq.present_priorities.Nodup

set_option synthInstance.maxSize 2048 in
instance QWF_decidable (pq : PropagatorQueue) : Decidable (QWF pq) := by
  unfold QWF
  infer_instance

/-- Value of a lhs under an integer assignment of the variables. -/
def eval_lhs (l : List (DomainId × Int)) (x : DomainId → Int) : Int :=
  (l.map (fun p => p.2 * x p.1)).sum

/-! Association list lemmas. -/

theorem tmod_neg_left (a b : Int) : (-a).tmod b = -(a.tmod b) := by
  have h1 := Int.tdiv_add_tmod a b
  have h2 := Int.tdiv_add_tmod (-a) b
  rw [Int.neg_tdiv] at h2
  linarith

theorem neg_lt_tmod (a : Int) {b : Int} (hb : 0 < b) : -b < a.tmod b := by
  have h := Int.tmod_lt_of_pos (-a) hb
  rw [tmod_neg_left] at h
  linarith

theorem div_ceil_eq_ceil_pos (num div : Int) (h : 0 < div) :
    div_ceil num div = ⌈(num : ℚ) / (div : ℚ)⌉ := by
  have hq : (0 : ℚ) < (div : ℚ) := by exact_mod_cast h
  have hmod := Int.tdiv_add_tmod num div
  have h1 : num.tmod div < div := Int.tmod_lt_of_pos num h
  have h2 : -div < num.tmod div := neg_lt_tmod num h
  symm
  rw [Int.ceil_eq_iff]
  unfold div_ceil
  by_cases hc : (num.tmod div > 0 ∧ div > 0) ∨ (num.tmod div < 0 ∧ div < 0)
  · rw [if_pos hc]
    have hr : 0 < num.tmod div := by
      rcases hc with ⟨hr, _⟩ | ⟨_, hd⟩
      · exact hr
      · exact absurd h (by omega)
    constructor
    · rw [lt_div_iff₀ hq]
      have : (num.tdiv div + 1 - 1) * div < num := by nlinarith
      exact_mod_cast this
    · rw [div_le_iff₀ hq]
      have : num ≤ (num.tdiv div + 1) * div := by nlinarith
      exact_mod_cast this
  · rw [if_neg hc]
    have hr : num.tmod div ≤ 0 := by
      by_contra hpos
      exact hc (Or.inl ⟨by omega, h⟩)
    constructor
    · rw [lt_div_iff₀ hq]
      have : (num.tdiv div - 1) * div < num := by nlinarith
      exact_mod_cast this
    · rw [div_le_iff₀ hq]
      have : num ≤ num.tdiv div * div := by nlinarith
      exact_mod_cast this

theorem div_ceil_neg_both (num div : Int) :
    div_ceil num div = div_ceil (-num) (-div) := by
  unfold div_ceil
  rw [Int.tdiv_neg, Int.neg_tdiv, neg_neg, Int.tmod_neg, tmod_neg_left]
  have hiff : ((-(num.tmod div) > 0 ∧ -div > 0) ∨ (-(num.tmod div) < 0 ∧ -div < 0)) ↔
      ((num.tmod div > 0 ∧ div > 0) ∨ (num.tmod div < 0 ∧ div < 0)) := by omega
  rw [if_congr hiff rfl rfl]

theorem div_ceil_eq_ceil (num div : Int) (h : div ≠ 0) :
    div_ceil num div = ⌈(num : ℚ) / (div : ℚ)⌉ := by
  rcases h.lt_or_lt with hneg | hpos
  · rw [div_ceil_neg_both num div, div_ceil_eq_ceil_pos (-num) (-div) (by omega)]
    congr 1
    push_cast
    rw [neg_div_neg_eq]
  · exact div_ceil_eq_ceil_pos num div hpos

theorem div_floor_eq_neg_ceil (num div : Int) :
    div_floor num div = -div_ceil (-num) div := by
  unfold div_floor div_ceil
  rw [Int.neg_tdiv, tmod_neg_left]
  have hiff : ((num.tmod div > 0 ∧ div < 0) ∨ (num.tmod div < 0 ∧ div > 0)) ↔
      ((-(num.tmod div) > 0 ∧ div > 0) ∨ (-(num.tmod div) < 0 ∧ div < 0)) := by omega
  rw [if_congr hiff rfl rfl]
  by_cases hc : (-(num.tmod div) > 0 ∧ div > 0) ∨ (-(num.tmod div) < 0 ∧ div < 0)
  · rw [if_pos hc, if_pos hc]; ring
  · rw [if_neg hc, if_neg hc]; ring

theorem div_floor_eq_floor (num div : Int) (h : div ≠ 0) :
    div_floor num div = ⌊(num : ℚ) / (div : ℚ)⌋ := by
  rw [div_floor_eq_neg_ceil, div_ceil_eq_ceil (-num) div h]
  have : ((-num : Int) : ℚ) / (div : ℚ) = -((num : ℚ) / (div : ℚ)) := by
    push_cast; ring
  rw [this, Int.ceil_neg, neg_neg]

/-- Exact division is its own ceiling: when div divides num the increment
branch of div_ceil is never taken. -/
theorem div_ceil_of_dvd (num div : Int) (h : div ∣ num) (hd : div ≠ 0) :
    div_ceil num div * div = num := by
  rcases h with ⟨c, rfl⟩
  have ht : (div * c).tmod div = 0 := by
    rw [mul_comm]
    exact Int.mul_tmod_left c div
  unfold div_ceil
  rw [ht]
  rw [if_neg (by omega)]
  rw [mul_comm div c, Int.mul_tdiv_cancel c hd, mul_comm]

/-! The binary gcd of intsat_conflict_resolver.rs.  The Rust code works on
i32 values with two's complement bit tricks; the embedding models the 32-bit
pattern of a value explicitly. -/

theorem ctz_go_fuel : ∀ n f1 f2 : Nat, n ≤ f1 → n ≤ f2 →
    ctz_go f1 n = ctz_go f2 n := by
  intro n
  induction n using Nat.strong_induction_on with
  | _ n ih =>
    intro f1 f2 h1 h2
    by_cases hc : n % 2 = 1 ∨ n = 0
    · match f1, f2 with
      | 0, 0 => rfl
      | 0, f2 + 1 => show 0 = ctz_go (f2 + 1) n; simp [ctz_go, hc]
      | f1 + 1, 0 => show ctz_go (f1 + 1) n = 0; simp [ctz_go, hc]
      | f1 + 1, f2 + 1 => show ctz_go (f1 + 1) n = ctz_go (f2 + 1) n; simp [ctz_go, hc]
    · have hn2 : 2 ≤ n := by omega
      obtain ⟨g1, rfl⟩ : ∃ g, f1 = g + 1 := ⟨f1 - 1, by omega⟩
      obtain ⟨g2, rfl⟩ : ∃ g, f2 = g + 1 := ⟨f2 - 1, by omega⟩
      show (if n % 2 = 1 ∨ n = 0 then 0 else ctz_go g1 (n / 2) + 1)
        = (if n % 2 = 1 ∨ n = 0 then 0 else ctz_go g2 (n / 2) + 1)
      rw [if_neg hc, if_neg hc]
      have hd : n / 2 < n := Nat.div_lt_self (by omega) (by omega)
      rw [ih (n / 2) hd g1 g2 (by omega) (by omega)]

theorem ctz_odd {n : Nat} (h : n % 2 = 1) : ctz n = 0 := by
  unfold ctz
  have h1 : 1 ≤ n := by omega
  match n, h1 with
  | n + 1, _ => exact if_pos (Or.inl h)

theorem ctz_even {n : Nat} (h1 : n % 2 = 0) (h2 : n ≠ 0) :
    ctz n = ctz (n / 2) + 1 := by
  unfold ctz
  have hn2 : 2 ≤ n := by omega
  match n, hn2 with
  | n + 1, _ =>
    show (if (n + 1) % 2 = 1 ∨ n + 1 = 0 then 0 else ctz_go n ((n + 1) / 2) + 1)
      = ctz_go ((n + 1) / 2) ((n + 1) / 2) + 1
    rw [if_neg (by omega)]
    rw [ctz_go_fuel ((n + 1) / 2) n ((n + 1) / 2) (by omega) (le_refl _)]

/-- Odd part decomposition: shifting right by the trailing-zero count gives
an odd number, and multiplying back by the matching power of two restores n. -/
theorem ctz_spec : ∀ n : Nat, n ≠ 0 →
    (n >>> ctz n) % 2 = 1 ∧ 2 ^ ctz n * (n >>> ctz n) = n := by
  intro n
  induction n using Nat.strong_induction_on with
  | _ n ih =>
    intro h
    rcases Nat.mod_two_eq_zero_or_one n with he | ho
    · have h2 : n / 2 ≠ 0 := by omega
      have hlt : n / 2 < n := Nat.div_lt_self (by omega) (by omega)
      obtain ⟨ha, hb⟩ := ih (n / 2) hlt h2
      rw [ctz_even he h]
      rw [Nat.shiftRight_eq_div_pow] at ha hb ⊢
      have hdiv : n / 2 ^ (ctz (n / 2) + 1) = n / 2 / 2 ^ ctz (n / 2) := by
        rw [Nat.div_div_eq_div_mul]
        rw [pow_succ, mul_comm (2 ^ ctz (n / 2)) 2]
      rw [hdiv]
      refine ⟨ha, ?_⟩
      rw [pow_succ, mul_comm (2 ^ ctz (n / 2)) 2, mul_assoc, hb]
      omega
    · rw [ctz_odd ho]
      simpa using ho

theorem testBit_lt_ctz : ∀ n : Nat, ∀ i, i < ctz n → n.testBit i = false := by
  intro n
  induction n using Nat.strong_induction_on with
  | _ n ih =>
    intro i hi
    rcases Nat.mod_two_eq_zero_or_one n with he | ho
    · by_cases h0 : n = 0
      · subst h0; exact Nat.zero_testBit i
      · rw [ctz_even he h0] at hi
        match i with
        | 0 => rw [Nat.testBit_zero]; simp [he]
        | j + 1 =>
          rw [Nat.testBit_succ]
          exact ih (n / 2) (Nat.div_lt_self (by omega) (by omega)) j (by omega)
    · rw [ctz_odd ho] at hi
      omega

theorem testBit_ctz_self : ∀ n : Nat, n ≠ 0 → n.testBit (ctz n) = true := by
  intro n
  induction n using Nat.strong_induction_on with
  | _ n ih =>
    intro h
    rcases Nat.mod_two_eq_zero_or_one n with he | ho
    · rw [ctz_even he h, Nat.testBit_succ]
      exact ih (n / 2) (Nat.div_lt_self (by omega) (by omega)) (by omega)
    · rw [ctz_odd ho, Nat.testBit_zero]
      simp [ho]

theorem ctz_eq_of_testBit (n k : Nat)
    (hb : ∀ i, i < k → n.testBit i = false) (hk : n.testBit k = true) :
    ctz n = k := by
  have hn : n ≠ 0 := by
    rintro rfl
    rw [Nat.zero_testBit] at hk
    exact Bool.noConfusion hk
  rcases lt_trichotomy (ctz n) k with h | h | h
  · have := hb _ h
    rw [testBit_ctz_self n hn] at this
    exact Bool.noConfusion this
  · exact h
  · have := testBit_lt_ctz n k h
    rw [hk] at this
    exact Bool.noConfusion this

theorem ctz_lor (m n : Nat) (hm : m ≠ 0) (hn : n ≠ 0) :
    ctz (m ||| n) = min (ctz m) (ctz n) := by
  apply ctz_eq_of_testBit
  · intro i hi
    rw [Nat.testBit_lor]
    rw [testBit_lt_ctz m i (lt_of_lt_of_le hi (min_le_left _ _))]
    rw [testBit_lt_ctz n i (lt_of_lt_of_le hi (min_le_right _ _))]
    rfl
  · rw [Nat.testBit_lor]
    rcases le_total (ctz m) (ctz n) with h | h
    · rw [min_eq_left h, testBit_ctz_self m hm, Bool.true_or]
    · rw [min_eq_right h, testBit_ctz_self n hn, Bool.or_true]

theorem or_ne_zero_left (m n : Nat) (hm : m ≠ 0) : m ||| n ≠ 0 := by
  intro h
  have hbit : (m ||| n).testBit (ctz m) = true := by
    rw [Nat.testBit_lor, testBit_ctz_self m hm, Bool.true_or]
  rw [h, Nat.zero_testBit] at hbit
  exact Bool.noConfusion hbit

theorem ctz_two_pow_mul (c u : Nat) (hu : u % 2 = 1) : ctz (2 ^ c * u) = c := by
  induction c with
  | zero => simpa using ctz_odd hu
  | succ c ih =>
    have hrw : 2 ^ (c + 1) * u = 2 * (2 ^ c * u) := by ring
    have hne : 2 ^ c * u ≠ 0 := by
      have : u ≠ 0 := by omega
      positivity
    rw [hrw, ctz_even (Nat.mul_mod_right 2 _) (by omega)]
    rw [Nat.mul_div_cancel_left _ (by norm_num)]
    rw [ih]

theorem bits32_lt (x : Int) : bits32 x < 2 ^ 32 := by
  unfold bits32
  have h1 : x % (2 ^ 32) < 2 ^ 32 := Int.emod_lt_of_pos x (by norm_num)
  have h2 : 0 ≤ x % (2 ^ 32) := Int.emod_nonneg x (by norm_num)
  omega

theorem bits32_intCast (x : Int) : (bits32 x : Int) = x % (2 ^ 32) := by
  unfold bits32
  exact Int.toNat_of_nonneg (Int.emod_nonneg x (by norm_num))

theorem bits32_ne_zero (x : Int) (hx : x ≠ 0) (hr : x.natAbs ≤ 2 ^ 31) :
    bits32 x ≠ 0 := by
  intro h
  have := bits32_intCast x
  rw [h] at this
  have habs : (x.natAbs : Int) = |x| := (Int.abs_eq_natAbs x).symm
  have hb : |x| ≤ 2 ^ 31 := by
    rw [← habs]
    exact_mod_cast hr
  rcases abs_le.mp hb with ⟨hl, hu⟩
  omega

theorem bits32_ofBits32 (p : Nat) (hp : p < 2 ^ 32) : bits32 (ofBits32 p) = p := by
  unfold ofBits32 bits32
  by_cases h : p < 2 ^ 31
  · rw [if_pos h]
    have hp' : (p : Int) % 2 ^ 32 = (p : Int) := by
      apply Int.emod_eq_of_lt (by positivity)
      exact_mod_cast lt_trans h (by norm_num)
    rw [hp']
    exact Int.toNat_natCast p
  · rw [if_neg h]
    have hp2 : ((p : Int) - 2 ^ 32) % 2 ^ 32 = (p : Int) - 2 ^ 32 + 2 ^ 32 := by
      have hlt : (p : Int) < 2 ^ 32 := by exact_mod_cast hp
      have hge : (2 : Int) ^ 31 ≤ (p : Int) := by
        have : (2 : Nat) ^ 31 ≤ p := by omega
        exact_mod_cast this
      omega
    rw [hp2]
    omega

theorem ofBits32_bits32 (x : Int) (h0 : i32Min ≤ x) (h1 : x ≤ i32Max) :
    ofBits32 (bits32 x) = x := by
  have hcast := bits32_intCast x
  unfold ofBits32
  simp only [i32Min, i32Max] at h0 h1
  by_cases h : bits32 x < 2 ^ 31
  · rw [if_pos h]
    have hlt : (bits32 x : Int) < 2 ^ 31 := by exact_mod_cast h
    omega
  · rw [if_neg h]
    have hge : (2 : Int) ^ 31 ≤ (bits32 x : Int) := by
      have : (2 : Nat) ^ 31 ≤ bits32 x := by omega
      exact_mod_cast this
    omega

theorem i32or_zero_left (b : Int) (h0 : i32Min ≤ b) (h1 : b ≤ i32Max) :
    i32or 0 b = b := by
  unfold i32or
  have hz : bits32 0 = 0 := by unfold bits32; rfl
  rw [hz, Nat.zero_or]
  exact ofBits32_bits32 b h0 h1

theorem i32or_zero_right (a : Int) (h0 : i32Min ≤ a) (h1 : a ≤ i32Max) :
    i32or a 0 = a := by
  unfold i32or
  have hz : bits32 0 = 0 := by unfold bits32; rfl
  rw [hz, Nat.or_zero]
  exact ofBits32_bits32 a h0 h1

/-- Trailing zeros are invariant under two's complement negation: the 32-bit
pattern of a negative value in range has the same trailing-zero count as its
absolute value. -/
theorem ctz_bits32 (x : Int) (hx : x ≠ 0) (hr : x.natAbs ≤ 2 ^ 31) :
    ctz (bits32 x) = ctz x.natAbs := by
  rcases hx.lt_or_lt with hneg | hpos
  · -- bits32 x = 2^32 - x.natAbs
    have habs : (x.natAbs : Int) = -x := by
      rw [← Int.abs_eq_natAbs]
      exact abs_of_neg hneg
    have hb : (bits32 x : Int) = x + 2 ^ 32 := by
      rw [bits32_intCast]
      have hge : -(2 ^ 31 : Int) ≤ x := by omega
      omega
    have hbn : bits32 x = 2 ^ 32 - x.natAbs := by omega
    set k := x.natAbs with hk
    have hk0 : k ≠ 0 := by omega
    obtain ⟨hodd, hmul⟩ := ctz_spec k hk0
    set c := ctz k with hc
    set u := k >>> c with hu0
    have hu1 : 0 < u := Nat.pos_of_ne_zero (by omega)
    have hc31 : c ≤ 31 := by
      have h2c : 2 ^ c ≤ k := by
        rw [← hmul]
        exact Nat.le_mul_of_pos_right _ hu1
      have hpow : (2 : Nat) ^ c ≤ 2 ^ 31 := le_trans h2c hr
      exact (Nat.pow_le_pow_iff_right (by norm_num)).mp hpow
    have hsplit : 2 ^ 32 - k = 2 ^ c * (2 ^ (32 - c) - u) := by
      rw [Nat.mul_sub, ← pow_add]
      have h32 : c + (32 - c) = 32 := by omega
      rw [h32, hmul]
    have hule : u ≤ 2 ^ (32 - c) := by
      have h1 : 2 ^ c * u ≤ 2 ^ 31 := by rw [hmul]; exact hr
      have h2 : 2 ^ c * (2 ^ (31 - c)) = 2 ^ 31 := by
        rw [← pow_add]; congr 1; omega
      have h3 : u ≤ 2 ^ (31 - c) := by
        by_contra hcon
        push_neg at hcon
        have hmul2 : 2 ^ c * (2 ^ (31 - c) + 1) ≤ 2 ^ c * u :=
          Nat.mul_le_mul_left _ (by omega)
        rw [Nat.mul_add, h2, mul_one] at hmul2
        have hc0 : 0 < (2 : Nat) ^ c := pow_pos (by norm_num) c
        omega
      calc u ≤ 2 ^ (31 - c) := h3
      _ ≤ 2 ^ (32 - c) := Nat.pow_le_pow_right (by norm_num) (by omega)
    have hodd' : (2 ^ (32 - c) - u) % 2 = 1 := by
      have he : 2 ^ (32 - c) = 2 * 2 ^ (31 - c) := by
        rw [← pow_succ']
        congr 1
        omega
      omega
    rw [hbn, hsplit, ctz_two_pow_mul _ _ hodd']
  · have hb : bits32 x = x.natAbs := by
      have habs : (x.natAbs : Int) = x := by
        rw [← Int.abs_eq_natAbs]
        exact abs_of_pos hpos
      have := bits32_intCast x
      have hlt : x < 2 ^ 32 := by omega
      have : (bits32 x : Int) = x := by
        rw [bits32_intCast]
        exact Int.emod_eq_of_lt (le_of_lt hpos) hlt
      omega
    rw [hb]

theorem trailing_zeros_i32or (a b : Int) (ha : a ≠ 0) (hb : b ≠ 0)
    (hra : a.natAbs ≤ 2 ^ 31) (hrb : b.natAbs ≤ 2 ^ 31) :
    trailing_zeros (i32or a b) = min (ctz a.natAbs) (ctz b.natAbs) := by
  unfold trailing_zeros i32or
  have hlt : bits32 a ||| bits32 b < 2 ^ 32 :=
    Nat.or_lt_two_pow (bits32_lt a) (bits32_lt b)
  rw [bits32_ofBits32 _ hlt]
  have hna : bits32 a ≠ 0 := bits32_ne_zero a ha hra
  have hnb : bits32 b ≠ 0 := bits32_ne_zero b hb hrb
  rw [if_neg (or_ne_zero_left _ _ hna)]
  rw [ctz_lor _ _ hna hnb, ctz_bits32 a ha hra, ctz_bits32 b hb hrb]

theorem gcd_sub_left (m n : Nat) (h : n ≤ m) :
    Nat.gcd (m - n) n = Nat.gcd m n := by
  apply Nat.dvd_antisymm
  · apply Nat.dvd_gcd
    · have hd : Nat.gcd (m - n) n ∣ (m - n) + n :=
        Nat.dvd_add (Nat.gcd_dvd_left _ _) (Nat.gcd_dvd_right _ _)
      rwa [Nat.sub_add_cancel h] at hd
    · exact Nat.gcd_dvd_right _ _
  · exact Nat.dvd_gcd
      (Nat.dvd_sub' (Nat.gcd_dvd_left m n) (Nat.gcd_dvd_right m n))
      (Nat.gcd_dvd_right m n)

theorem coprime_pow2_of_odd (d n : Nat) (hn : n % 2 = 1) :
    Nat.Coprime (2 ^ d) n :=
  Nat.Coprime.pow_left _ (Nat.coprime_two_left.mpr (Nat.odd_iff.mpr hn))

/-- Dropping the trailing zeros of the left argument does not change the gcd
with an odd right argument. -/
theorem gcd_oddPart_left (x n : Nat) (hx : x ≠ 0) (hn : n % 2 = 1) :
    Nat.gcd (x >>> ctz x) n = Nat.gcd x n := by
  obtain ⟨_, hm⟩ := ctz_spec x hx
  conv_rhs => rw [← hm]
  exact (Nat.Coprime.gcd_mul_left_cancel _ (coprime_pow2_of_odd _ n hn)).symm

/-- Correctness of the subtract-and-shift loop on odd positive inputs, for
any fuel at least the sum of the arguments. -/
theorem gcd_loop_eq : ∀ fuel m n : Nat, m % 2 = 1 → n % 2 = 1 →
    m + n ≤ fuel + 1 → gcd_loop fuel m n = Nat.gcd m n := by
  intro fuel
  induction fuel with
  | zero => intro m n hm hn hle; omega
  | succ fuel ih =>
    intro m n hm hn hle
    show (if m = n then m
      else if m > n then gcd_loop fuel ((m - n) >>> ctz (m - n)) n
      else gcd_loop fuel m ((n - m) >>> ctz (n - m))) = Nat.gcd m n
    by_cases he : m = n
    · rw [if_pos he, he, Nat.gcd_self]
    · rw [if_neg he]
      by_cases hgt : m > n
      · rw [if_pos hgt]
        have hsub_ne : m - n ≠ 0 := by omega
        have hparity : (m - n) % 2 = 0 := by omega
        obtain ⟨ho, hmul⟩ := ctz_spec (m - n) hsub_ne
        have hctz1 : 1 ≤ ctz (m - n) := by
          rw [ctz_even hparity hsub_ne]
          omega
        have hu_le : 2 * ((m - n) >>> ctz (m - n)) ≤ m - n := by
          have hp : (2 : Nat) ^ 1 ≤ 2 ^ ctz (m - n) :=
            Nat.pow_le_pow_right (by norm_num) hctz1
          calc 2 * ((m - n) >>> ctz (m - n))
              = 2 ^ 1 * ((m - n) >>> ctz (m - n)) := by rw [pow_one]
            _ ≤ 2 ^ ctz (m - n) * ((m - n) >>> ctz (m - n)) :=
              Nat.mul_le_mul_right _ hp
            _ = m - n := hmul
        rw [ih _ n ho hn (by omega)]
        rw [gcd_oddPart_left (m - n) n hsub_ne hn]
        exact gcd_sub_left m n (le_of_lt hgt)
      · rw [if_neg hgt]
        have hlt : m < n := by omega
        have hsub_ne : n - m ≠ 0 := by omega
        have hparity : (n - m) % 2 = 0 := by omega
        obtain ⟨ho, hmul⟩ := ctz_spec (n - m) hsub_ne
        have hctz1 : 1 ≤ ctz (n - m) := by
          rw [ctz_even hparity hsub_ne]
          omega
        have hu_le : 2 * ((n - m) >>> ctz (n - m)) ≤ n - m := by
          have hp : (2 : Nat) ^ 1 ≤ 2 ^ ctz (n - m) :=
            Nat.pow_le_pow_right (by norm_num) hctz1
          calc 2 * ((n - m) >>> ctz (n - m))
              = 2 ^ 1 * ((n - m) >>> ctz (n - m)) := by rw [pow_one]
            _ ≤ 2 ^ ctz (n - m) * ((n - m) >>> ctz (n - m)) :=
              Nat.mul_le_mul_right _ hp
            _ = n - m := hmul
        rw [ih m _ hm ho (by omega)]
        rw [Nat.gcd_comm m _, gcd_oddPart_left (n - m) m hsub_ne hm]
        rw [gcd_sub_left n m (le_of_lt hlt), Nat.gcd_comm n m]

theorem gcd_pow2_parts (ca cb u w : Nat) (hu : u % 2 = 1) (hw : w % 2 = 1) :
    Nat.gcd (2 ^ ca * u) (2 ^ cb * w) = 2 ^ min ca cb * Nat.gcd u w := by
  rcases le_total ca cb with h | h
  · rw [min_eq_left h]
    have hsplit : 2 ^ cb * w = 2 ^ ca * (2 ^ (cb - ca) * w) := by
      rw [← mul_assoc, ← pow_add]
      congr 2
      omega
    rw [hsplit, Nat.gcd_mul_left]
    congr 1
    exact Nat.Coprime.gcd_mul_left_cancel_right _ (coprime_pow2_of_odd _ u hu)
  · rw [min_eq_right h]
    have hsplit : 2 ^ ca * u = 2 ^ cb * (2 ^ (ca - cb) * u) := by
      rw [← mul_assoc, ← pow_add]
      congr 2
      omega
    rw [hsplit, Nat.gcd_mul_left]
    congr 1
    rw [Nat.gcd_comm, Nat.gcd_comm u w]
    exact Nat.Coprime.gcd_mul_left_cancel_right _ (coprime_pow2_of_odd _ w hw)

theorem shiftRight_le_self (m k : Nat) : m >>> k ≤ m := by
  rw [Nat.shiftRight_eq_div_pow]
  exact Nat.div_le_self _ _

/-- Correctness of the translated binary gcd: on i32 values other than
i32::MIN it computes the mathematical gcd of the absolute values. -/
theorem natAbs_i32Min : i32Min.natAbs = 2 ^ 31 := by
  unfold i32Min
  rfl

theorem abs_ofBits32_two_pow (k : Nat) (hk : k ≤ 31) :
    |ofBits32 ((1 <<< k) % 2 ^ 32)| = ((2 : Int) ^ k) := by
  rw [Nat.shiftLeft_eq, one_mul]
  have hlt : (2 : Nat) ^ k < 2 ^ 32 := Nat.pow_lt_pow_right (by norm_num) (by omega)
  rw [Nat.mod_eq_of_lt hlt]
  unfold ofBits32
  by_cases h : (2 : Nat) ^ k < 2 ^ 31
  · rw [if_pos h]
    rw [abs_of_nonneg (by positivity)]
    push_cast
    rfl
  · rw [if_neg h]
    have hk31 : k = 31 := by
      by_contra hne
      exact h (Nat.pow_lt_pow_right (by norm_num) (by omega))
    subst hk31
    norm_num

theorem abs_i32or_zero_left (b : Int) (hrb : b.natAbs ≤ 2 ^ 31) :
    |i32or 0 b| = (b.natAbs : Int) := by
  unfold i32or
  have hz : bits32 0 = 0 := by unfold bits32; rfl
  rw [hz, Nat.zero_or]
  have hcast := bits32_intCast b
  have key : ofBits32 (bits32 b) = b ∨ ofBits32 (bits32 b) = -b := by
    unfold ofBits32
    by_cases h : bits32 b < 2 ^ 31
    · have hlt : (bits32 b : Int) < 2 ^ 31 := by exact_mod_cast h
      rw [if_pos h]
      omega
    · have hge : (2 : Int) ^ 31 ≤ (bits32 b : Int) := by
        exact_mod_cast Nat.le_of_not_lt h
      rw [if_neg h]
      omega
  rcases key with he | he
  · rw [he, Int.abs_eq_natAbs]
  · rw [he, abs_neg, Int.abs_eq_natAbs]

theorem abs_i32or_zero_right (a : Int) (hra : a.natAbs ≤ 2 ^ 31) :
    |i32or a 0| = (a.natAbs : Int) := by
  have h := abs_i32or_zero_left a hra
  unfold i32or at h ⊢
  have hz : bits32 0 = 0 := by unfold bits32; rfl
  rw [hz, Nat.zero_or] at h
  rw [hz, Nat.or_zero]
  exact h

/-- Correctness of the translated binary gcd on i32 magnitudes away from
the special i32::MIN branch. -/
theorem gcd_eq_int_gcd (a b : Int)
    (hra : a.natAbs ≤ 2 ^ 31) (hrb : b.natAbs ≤ 2 ^ 31)
    (hminb : ¬(a = i32Min ∨ b = i32Min)) :
    gcd a b = (Int.gcd a b : Int) := by
  unfold gcd
  by_cases hz : a = 0 ∨ b = 0
  · rw [if_pos hz]
    rcases hz with rfl | rfl
    · rw [abs_i32or_zero_left b hrb]
      simp [Int.gcd]
    · rw [abs_i32or_zero_right a hra]
      simp [Int.gcd]
  · rw [if_neg hz]
    push_neg at hz
    obtain ⟨ha, hb⟩ := hz
    rw [if_neg hminb]
    have hna : a.natAbs ≠ 0 := by
      intro h
      exact ha (Int.natAbs_eq_zero.mp h)
    have hnb : b.natAbs ≠ 0 := by
      intro h
      exact hb (Int.natAbs_eq_zero.mp h)
    obtain ⟨hoa, hma⟩ := ctz_spec a.natAbs hna
    obtain ⟨hob, hmb⟩ := ctz_spec b.natAbs hnb
    rw [trailing_zeros_i32or a b ha hb hra hrb]
    rw [gcd_loop_eq _ _ _ hoa hob (by
      have h1 := shiftRight_le_self a.natAbs (ctz a.natAbs)
      have h2 := shiftRight_le_self b.natAbs (ctz b.natAbs)
      omega)]
    rw [Nat.shiftLeft_eq]
    have hgcd : Int.gcd a b = Nat.gcd a.natAbs b.natAbs := rfl
    rw [hgcd]
    have hre : Nat.gcd a.natAbs b.natAbs =
        2 ^ min (ctz a.natAbs) (ctz b.natAbs) *
          Nat.gcd (a.natAbs >>> ctz a.natAbs) (b.natAbs >>> ctz b.natAbs) := by
      conv_lhs => rw [← hma, ← hmb]
      exact gcd_pow2_parts _ _ _ _ hoa hob
    rw [hre]
    push_cast
    ring

/-- Full correctness of the translated binary gcd on i32 magnitudes,
covering the special branch for i32::MIN (whose absolute value is a power
of two computed by shifting).  The source abs() is modelled as the
mathematical absolute value (debug Rust panics on i32::MIN rather than
wrap). -/
theorem gcd_eq_int_gcd_i32 (a b : Int)
    (hra : a.natAbs ≤ 2 ^ 31) (hrb : b.natAbs ≤ 2 ^ 31) :
    gcd a b = (Int.gcd a b : Int) := by
  by_cases hz : a = 0 ∨ b = 0
  · unfold gcd
    rw [if_pos hz]
    rcases hz with rfl | rfl
    · rw [abs_i32or_zero_left b hrb]
      simp [Int.gcd]
    · rw [abs_i32or_zero_right a hra]
      simp [Int.gcd]
  · push_neg at hz
    obtain ⟨haz, hbz⟩ := hz
    by_cases hmin : a = i32Min ∨ b = i32Min
    · have hnna : a.natAbs ≠ 0 := fun h => haz (Int.natAbs_eq_zero.mp h)
      have hnnb : b.natAbs ≠ 0 := fun h => hbz (Int.natAbs_eq_zero.mp h)
      obtain ⟨hoa, hma⟩ := ctz_spec a.natAbs hnna
      obtain ⟨hob, hmb⟩ := ctz_spec b.natAbs hnnb
      have hpa : 0 < a.natAbs >>> ctz a.natAbs :=
        Nat.pos_of_ne_zero (fun h0 => by rw [h0] at hoa; exact absurd hoa (by norm_num))
      have hpb : 0 < b.natAbs >>> ctz b.natAbs :=
        Nat.pos_of_ne_zero (fun h0 => by rw [h0] at hob; exact absurd hob (by norm_num))
      have hca31 : ctz a.natAbs ≤ 31 := by
        have h2c : 2 ^ ctz a.natAbs ≤ a.natAbs := by
          conv_rhs => rw [← hma]
          exact Nat.le_mul_of_pos_right _ hpa
        exact (Nat.pow_le_pow_iff_right (by norm_num)).mp (le_trans h2c hra)
      have hcb31 : ctz b.natAbs ≤ 31 := by
        have h2c : 2 ^ ctz b.natAbs ≤ b.natAbs := by
          conv_rhs => rw [← hmb]
          exact Nat.le_mul_of_pos_right _ hpb
        exact (Nat.pow_le_pow_iff_right (by norm_num)).mp (le_trans h2c hrb)
      unfold gcd
      rw [if_neg (show ¬(a = 0 ∨ b = 0) by
        rintro (rfl | rfl)
        exacts [haz rfl, hbz rfl])]
      rw [if_pos hmin]
      rw [trailing_zeros_i32or a b haz hbz hra hrb]
      rw [abs_ofBits32_two_pow _ (by omega)]
      have hgcd : Int.gcd a b = Nat.gcd a.natAbs b.natAbs := rfl
      rw [hgcd]
      have hre : Nat.gcd a.natAbs b.natAbs =
          2 ^ min (ctz a.natAbs) (ctz b.natAbs) *
            Nat.gcd (a.natAbs >>> ctz a.natAbs) (b.natAbs >>> ctz b.natAbs) := by
        conv_lhs => rw [← hma, ← hmb]
        exact gcd_pow2_parts _ _ _ _ hoa hob
      have hctMin : ctz i32Min.natAbs = 31 := by
        have h31 : i32Min.natAbs = 2 ^ 31 * 1 := by rw [natAbs_i32Min, mul_one]
        rw [h31]
        exact ctz_two_pow_mul 31 1 (by norm_num)
      have hshMin : i32Min.natAbs >>> ctz i32Min.natAbs = 1 := by
        rw [hctMin, Nat.shiftRight_eq_div_pow, natAbs_i32Min,
          Nat.div_self (by positivity)]
      have hone : Nat.gcd (a.natAbs >>> ctz a.natAbs)
          (b.natAbs >>> ctz b.natAbs) = 1 := by
        rcases hmin with rfl | rfl
        · rw [hshMin, Nat.gcd_one_left]
        · rw [hshMin, Nat.gcd_one_right]
      rw [hre, hone, mul_one]
      push_cast
      rfl
    · exact gcd_eq_int_gcd a b hra hrb hmin


/-! Model of LinearLessOrEqual (engine/cp/propagation/linear_less_or_equal.rs)
and of IntSatConflictResolver::apply_cut.  The HashMap built by apply_cut is
modelled as an association list with distinct keys; DomainId is a Nat. -/

theorem alLookup_nil (k : DomainId) : alLookup [] k = none := rfl

theorem alLookup_cons (k' : DomainId) (v' : Int) (rest : List (DomainId × Int))
    (k : DomainId) :
    alLookup ((k', v') :: rest) k =
      if k' = k then some v' else alLookup rest k := by
  by_cases h : k' = k <;> simp [alLookup, List.find?_cons, h]

theorem alContains_eq_isSome (m : List (DomainId × Int)) (k : DomainId) :
    alContains m k = (alLookup m k).isSome := by
  unfold alContains alLookup
  cases List.find? (fun p => p.1 == k) m <;> rfl

theorem alLookup_eq_none_of_not_mem (m : List (DomainId × Int)) (k : DomainId)
    (h : k ∉ m.map Prod.fst) : alLookup m k = none := by
  induction m with
  | nil => rfl
  | cons p rest ih =>
    obtain ⟨pk, pv⟩ := p
    rw [alLookup_cons]
    simp only [List.map_cons, List.mem_cons] at h
    push_neg at h
    rw [if_neg (Ne.symm h.1), ih h.2]

theorem alLookup_mem (m : List (DomainId × Int)) (k : DomainId) (v : Int)
    (h : alLookup m k = some v) : (k, v) ∈ m := by
  induction m with
  | nil => exact absurd h (by simp [alLookup_nil])
  | cons p rest ih =>
    obtain ⟨pk, pv⟩ := p
    rw [alLookup_cons] at h
    by_cases he : pk = k
    · rw [if_pos he] at h
      injection h with hv
      subst he
      subst hv
      exact List.mem_cons_self _ _
    · rw [if_neg he] at h
      exact List.mem_cons_of_mem _ (ih h)

theorem alLookup_of_mem_nodup (m : List (DomainId × Int)) (p : DomainId × Int)
    (hnd : (m.map Prod.fst).Nodup) (h : p ∈ m) : alLookup m p.1 = some p.2 := by
  induction m with
  | nil => exact absurd h (List.not_mem_nil p)
  | cons q rest ih =>
    obtain ⟨qk, qv⟩ := q
    simp only [List.map_cons, List.nodup_cons] at hnd
    rcases List.mem_cons.mp h with rfl | hmem
    · rw [alLookup_cons, if_pos rfl]
    · rw [alLookup_cons]
      have hne : qk ≠ p.1 := by
        intro he
        exact hnd.1 (he ▸ List.mem_map_of_mem Prod.fst hmem)
      rw [if_neg hne]
      exact ih hnd.2 hmem

theorem alLookup_alSet_self (m : List (DomainId × Int)) (k : DomainId)
    (v : Int) : alLookup (alSet m k v) k = some v := by
  induction m with
  | nil => simp [alSet, alLookup_cons]
  | cons p rest ih =>
    obtain ⟨pk, pv⟩ := p
    unfold alSet
    by_cases h : pk = k
    · rw [if_pos h, alLookup_cons, if_pos h]
    · rw [if_neg h, alLookup_cons, if_neg h]
      exact ih

theorem alLookup_alSet_ne (m : List (DomainId × Int)) (k w : DomainId)
    (v : Int) (h : w ≠ k) : alLookup (alSet m k v) w = alLookup m w := by
  induction m with
  | nil =>
    show alLookup [(k, v)] w = none
    rw [alLookup_cons, if_neg (Ne.symm h), alLookup_nil]
  | cons p rest ih =>
    obtain ⟨pk, pv⟩ := p
    unfold alSet
    by_cases he : pk = k
    · rw [if_pos he, alLookup_cons, alLookup_cons]
      have hne : pk ≠ w := by rw [he]; exact Ne.symm h
      rw [if_neg hne, if_neg hne]
    · rw [if_neg he, alLookup_cons, alLookup_cons]
      by_cases hw : pk = w
      · rw [if_pos hw, if_pos hw]
      · rw [if_neg hw, if_neg hw]
        exact ih

theorem alLookup_alRemove_ne (m : List (DomainId × Int)) (k w : DomainId)
    (h : w ≠ k) : alLookup (alRemove m k) w = alLookup m w := by
  induction m with
  | nil => rfl
  | cons p rest ih =>
    obtain ⟨pk, pv⟩ := p
    unfold alRemove
    by_cases he : pk = k
    · rw [if_pos he, alLookup_cons]
      have hne : pk ≠ w := by rw [he]; exact Ne.symm h
      rw [if_neg hne]
    · rw [if_neg he, alLookup_cons, alLookup_cons]
      by_cases hw : pk = w
      · rw [if_pos hw, if_pos hw]
      · rw [if_neg hw, if_neg hw]
        exact ih

theorem alLookup_alRemove_self (m : List (DomainId × Int)) (k : DomainId)
    (hnd : (m.map Prod.fst).Nodup) : alLookup (alRemove m k) k = none := by
  induction m with
  | nil => rfl
  | cons p rest ih =>
    obtain ⟨pk, pv⟩ := p
    simp only [List.map_cons, List.nodup_cons] at hnd
    unfold alRemove
    by_cases he : pk = k
    · rw [if_pos he]
      apply alLookup_eq_none_of_not_mem
      rw [← he]
      exact hnd.1
    · rw [if_neg he, alLookup_cons, if_neg he]
      exact ih hnd.2

theorem keys_alRemove_sublist (m : List (DomainId × Int)) (k : DomainId) :
    ((alRemove m k).map Prod.fst).Sublist (m.map Prod.fst) := by
  induction m with
  | nil => exact List.Sublist.refl _
  | cons p rest ih =>
    obtain ⟨pk, pv⟩ := p
    unfold alRemove
    by_cases he : pk = k
    · rw [if_pos he]
      simp only [List.map_cons]
      exact List.sublist_cons_self _ _
    · rw [if_neg he]
      simp only [List.map_cons]
      exact ih.cons₂ pk

theorem nodup_alRemove (m : List (DomainId × Int)) (k : DomainId)
    (hnd : (m.map Prod.fst).Nodup) : ((alRemove m k).map Prod.fst).Nodup :=
  hnd.sublist (keys_alRemove_sublist m k)

theorem mem_keys_alSet (m : List (DomainId × Int)) (k w : DomainId) (v : Int) :
    w ∈ (alSet m k v).map Prod.fst ↔ w ∈ m.map Prod.fst ∨ w = k := by
  induction m with
  | nil => simp [alSet]
  | cons p rest ih =>
    obtain ⟨pk, pv⟩ := p
    unfold alSet
    by_cases he : pk = k
    · rw [if_pos he]
      subst he
      simp only [List.map_cons, List.mem_cons]
      tauto
    · rw [if_neg he]
      simp only [List.map_cons, List.mem_cons, ih]
      tauto

theorem nodup_alSet (m : List (DomainId × Int)) (k : DomainId) (v : Int)
    (hnd : (m.map Prod.fst).Nodup) : ((alSet m k v).map Prod.fst).Nodup := by
  induction m with
  | nil => simp [alSet]
  | cons p rest ih =>
    obtain ⟨pk, pv⟩ := p
    simp only [List.map_cons, List.nodup_cons] at hnd
    unfold alSet
    by_cases he : pk = k
    · rw [if_pos he]
      simp only [List.map_cons, List.nodup_cons]
      exact hnd
    · rw [if_neg he]
      simp only [List.map_cons, List.nodup_cons]
      refine ⟨?_, ih hnd.2⟩
      intro hm
      rcases (mem_keys_alSet rest k pk v).mp hm with h | h
      · exact hnd.1 h
      · exact he h

theorem mem_alSet (m : List (DomainId × Int)) (k : DomainId) (v : Int)
    (p : DomainId × Int) (h : p ∈ alSet m k v) : p = (k, v) ∨ p ∈ m := by
  induction m with
  | nil => simpa [alSet] using h
  | cons q rest ih =>
    obtain ⟨qk, qv⟩ := q
    unfold alSet at h
    by_cases he : qk = k
    · rw [if_pos he] at h
      rcases List.mem_cons.mp h with rfl | hm
      · subst he
        exact Or.inl rfl
      · exact Or.inr (List.mem_cons_of_mem _ hm)
    · rw [if_neg he] at h
      rcases List.mem_cons.mp h with rfl | hm
      · exact Or.inr (List.mem_cons_self _ _)
      · rcases ih hm with h1 | h1
        · exact Or.inl h1
        · exact Or.inr (List.mem_cons_of_mem _ h1)

theorem mem_alRemove (m : List (DomainId × Int)) (k : DomainId)
    (p : DomainId × Int) (h : p ∈ alRemove m k) : p ∈ m := by
  induction m with
  | nil => exact absurd h (List.not_mem_nil p)
  | cons q rest ih =>
    obtain ⟨qk, qv⟩ := q
    unfold alRemove at h
    by_cases he : qk = k
    · rw [if_pos he] at h
      exact List.mem_cons_of_mem _ h
    · rw [if_neg he] at h
      rcases List.mem_cons.mp h with rfl | hm
      · exact List.mem_cons_self _ _
      · exact List.mem_cons_of_mem _ (ih hm)

/-! Inversion lemmas for the checked arithmetic and for the two loops of
apply_cut. -/

theorem checked_mul_some {a b c : Int} (h : checked_mul a b = some c) :
    c = a * b ∧ inI32 (a * b) := by
  unfold checked_mul at h
  by_cases hr : inI32 (a * b)
  · rw [if_pos hr] at h
    injection h with h
    exact ⟨h.symm, hr⟩
  · rw [if_neg hr] at h
    exact Option.noConfusion h

theorem checked_add_some {a b c : Int} (h : checked_add a b = some c) :
    c = a + b ∧ inI32 (a + b) := by
  unfold checked_add at h
  by_cases hr : inI32 (a + b)
  · rw [if_pos hr] at h
    injection h with h
    exact ⟨h.symm, hr⟩
  · rw [if_neg hr] at h
    exact Option.noConfusion h

theorem checked_mul_none {a b : Int} :
    checked_mul a b = none ↔ ¬inI32 (a * b) := by
  unfold checked_mul
  by_cases hr : inI32 (a * b) <;> simp [hr]

theorem checked_add_none {a b : Int} :
    checked_add a b = none ↔ ¬inI32 (a + b) := by
  unfold checked_add
  by_cases hr : inI32 (a + b) <;> simp [hr]

theorem scale_lhs_some (mult : Int) : ∀ (l m0 : List (DomainId × Int)),
    scale_lhs mult l = some m0 →
    m0 = l.map (fun p => (p.1, mult * p.2)) ∧ ∀ p ∈ l, inI32 (mult * p.2) := by
  intro l
  induction l with
  | nil =>
    intro m0 h
    injection h with h
    simp [← h]
  | cons hd rest ih =>
    obtain ⟨id, s⟩ := hd
    intro m0 h
    unfold scale_lhs at h
    cases hcm : checked_mul mult s with
    | none => rw [hcm] at h; exact Option.noConfusion h
    | some ns =>
      rw [hcm] at h
      cases hrec : scale_lhs mult rest with
      | none => rw [hrec] at h; exact Option.noConfusion h
      | some tail =>
        rw [hrec] at h
        injection h with h
        obtain ⟨hns, hr⟩ := checked_mul_some hcm
        obtain ⟨htail, hrest⟩ := ih tail hrec
        subst hns
        constructor
        · rw [← h, htail]
          rfl
        · intro p hp
          rcases List.mem_cons.mp hp with rfl | hm
          · exact hr
          · exact hrest p hm

theorem scale_lhs_none (mult : Int) : ∀ l : List (DomainId × Int),
    scale_lhs mult l = none ↔ ∃ p ∈ l, ¬inI32 (mult * p.2) := by
  intro l
  induction l with
  | nil => simp [scale_lhs]
  | cons hd rest ih =>
    obtain ⟨id, s⟩ := hd
    unfold scale_lhs
    cases hcm : checked_mul mult s with
    | none =>
      simp only [List.mem_cons]
      constructor
      · intro _
        exact ⟨(id, s), Or.inl rfl, checked_mul_none.mp hcm⟩
      · intro _
        trivial
    | some ns =>
      cases hrec : scale_lhs mult rest with
      | none =>
        simp only [List.mem_cons]
        constructor
        · intro _
          obtain ⟨p, hp, hno⟩ := ih.mp hrec
          exact ⟨p, Or.inr hp, hno⟩
        · intro _
          trivial
      | some tail =>
        simp only [List.mem_cons]
        constructor
        · intro h
          exact Option.noConfusion h
        · rintro ⟨p, hp | hp, hno⟩
          · subst hp
            exact absurd (checked_mul_some hcm).2 hno
          · exact absurd hrec ((ih.mpr ⟨p, hp, hno⟩) ▸ (by simp))

theorem alLookup_map_values (f : Int → Int) :
    ∀ (l : List (DomainId × Int)) (w : DomainId),
    alLookup (l.map (fun p => (p.1, f p.2))) w = (alLookup l w).map f := by
  intro l
  induction l with
  | nil => intro w; rfl
  | cons hd rest ih =>
    obtain ⟨id, s⟩ := hd
    intro w
    simp only [List.map_cons]
    rw [alLookup_cons, alLookup_cons]
    by_cases h : id = w
    · rw [if_pos h, if_pos h]
      rfl
    · rw [if_neg h, if_neg h]
      exact ih w

theorem alContains_ne_of_update (m : List (DomainId × Int)) (id w : DomainId)
    (ncurr : Int) (hw : w ≠ id) :
    alLookup (if ncurr = 0 then alRemove m id else alSet m id ncurr) w =
      alLookup m w := by
  by_cases hz : ncurr = 0
  · rw [if_pos hz]
    exact alLookup_alRemove_ne m id w hw
  · rw [if_neg hz]
    exact alLookup_alSet_ne m id w ncurr hw

/-- Full characterization of the second loop of apply_cut: final key set is
nodup, untouched keys keep their entry, keys of the reason get the summed
coefficient (dropped when 0), and skip_early_backjump survives exactly when
no reason key other than var was already present. -/
theorem add_lhs_some_spec (mult : Int) (var : DomainId) :
    ∀ (l m : List (DomainId × Int)) (skip : Bool)
      (m' : List (DomainId × Int)) (skip' : Bool),
    add_lhs mult var m l skip = some (m', skip') →
    (l.map Prod.fst).Nodup → (m.map Prod.fst).Nodup →
    ((m'.map Prod.fst).Nodup ∧
     (∀ w, w ∉ l.map Prod.fst → alLookup m' w = alLookup m w) ∧
     (∀ w, w ∈ l.map Prod.fst →
        alLookup m' w =
          (if (alLookup m w).getD 0 + mult * coef l w = 0 then none
           else some ((alLookup m w).getD 0 + mult * coef l w))) ∧
     (skip' = true ↔
        (skip = true ∧ ∀ p ∈ l, alContains m p.1 = true → p.1 = var))) := by
  intro l
  induction l with
  | nil =>
    intro m skip m' skip' h hndl hndm
    injection h with h
    cases h
    refine ⟨hndm, ?_, ?_, ?_⟩
    · intro w _; rfl
    · intro w hw; exact absurd hw (List.not_mem_nil w)
    · simp
  | cons hd rest ih =>
    obtain ⟨id, s⟩ := hd
    intro m skip m' skip' h hndl hndm
    simp only [List.map_cons, List.nodup_cons] at hndl
    obtain ⟨hid_notin, hnd_rest⟩ := hndl
    cases hcm : checked_mul mult s with
    | none =>
      simp only [add_lhs, hcm] at h
      exact Option.noConfusion h
    | some ns =>
      cases hca : checked_add ((alLookup m id).getD 0) ns with
      | none =>
        simp only [add_lhs, hcm, hca] at h
        exact Option.noConfusion h
      | some ncurr =>
        simp only [add_lhs, hcm, hca] at h
        obtain ⟨hns, _⟩ := checked_mul_some hcm
        obtain ⟨hnc, _⟩ := checked_add_some hca
        subst hns
        set m1 := if ncurr = 0 then alRemove m id else alSet m id ncurr with hm1
        have hndm1 : (m1.map Prod.fst).Nodup := by
          rw [hm1]
          by_cases hz : ncurr = 0
          · rw [if_pos hz]; exact nodup_alRemove m id hndm
          · rw [if_neg hz]; exact nodup_alSet m id ncurr hndm
        have hlook_ne : ∀ w, w ≠ id → alLookup m1 w = alLookup m w := by
          intro w hw
          rw [hm1]
          exact alContains_ne_of_update m id w ncurr hw
        have hlook_id : alLookup m1 id =
            if ncurr = 0 then none else some ncurr := by
          rw [hm1]
          by_cases hz : ncurr = 0
          · rw [if_pos hz, if_pos hz]
            exact alLookup_alRemove_self m id hndm
          · rw [if_neg hz, if_neg hz]
            exact alLookup_alSet_self m id ncurr
        obtain ⟨g1, g2, g3, g4⟩ := ih m1 _ m' skip' h hnd_rest hndm1
        refine ⟨g1, ?_, ?_, ?_⟩
        · intro w hw
          simp only [List.map_cons, List.mem_cons] at hw
          push_neg at hw
          rw [g2 w hw.2, hlook_ne w hw.1]
        · intro w hw
          simp only [List.map_cons, List.mem_cons] at hw
          by_cases hwid : w = id
          · subst hwid
            rw [g2 w hid_notin, hlook_id]
            have hco : coef ((w, s) :: rest) w = s := by
              unfold coef
              rw [alLookup_cons, if_pos rfl]
              rfl
            rw [hco, ← hnc]
          · have hwrest : w ∈ rest.map Prod.fst := by
              rcases hw with h1 | h1
              · exact absurd h1 hwid
              · exact h1
            have hco : coef ((id, s) :: rest) w = coef rest w := by
              unfold coef
              rw [alLookup_cons, if_neg (fun he => hwid he.symm)]
            rw [g3 w hwrest, hlook_ne w hwid, hco]
        · rw [g4]
          have hcont_rest : ∀ p ∈ rest, alContains m1 p.1 = alContains m p.1 := by
            intro p hp
            have hpne : p.1 ≠ id := by
              intro he
              exact hid_notin (he ▸ List.mem_map_of_mem Prod.fst hp)
            rw [alContains_eq_isSome, alContains_eq_isSome, hlook_ne p.1 hpne]
          cases hb : (alContains m id && (id != var)) with
          | true =>
            rw [if_pos (show (true : Bool) = true from rfl)]
            simp only [Bool.and_eq_true, bne_iff_ne] at hb
            constructor
            · intro hfalse
              exact absurd hfalse.1 (by simp)
            · rintro ⟨-, hall⟩
              exact absurd (hall (id, s) (List.mem_cons_self _ _) hb.1) hb.2
          | false =>
            rw [if_neg (show ¬(false : Bool) = true from Bool.false_ne_true)]
            have hb2 : ¬(alContains m id = true ∧ id ≠ var) := by
              rintro ⟨hx1, hx2⟩
              rw [hx1] at hb
              simp [bne_iff_ne, hx2] at hb
            have hhead : alContains m id = true → id = var := by
              intro hc
              by_contra hne
              exact hb2 ⟨hc, hne⟩
            constructor
            · rintro ⟨hskip, hall⟩
              refine ⟨hskip, ?_⟩
              intro p hp
              rcases List.mem_cons.mp hp with rfl | hm
              · intro hc
                exact hhead hc
              · intro hc
                exact hall p hm ((hcont_rest p hm).trans hc)
            · rintro ⟨hskip, hall⟩
              refine ⟨hskip, ?_⟩
              intro p hp hc
              exact hall p (List.mem_cons_of_mem _ hp)
                ((hcont_rest p hp).symm.trans hc)

/-- The second loop only stores checked sums: every value of the final map
is an i32 if every value of the starting map is. -/
theorem add_lhs_range (mult : Int) (var : DomainId) :
    ∀ (l m : List (DomainId × Int)) (skip : Bool)
      (m' : List (DomainId × Int)) (skip' : Bool),
    add_lhs mult var m l skip = some (m', skip') →
    (∀ p ∈ m, inI32 p.2) → (∀ p ∈ m', inI32 p.2) := by
  intro l
  induction l with
  | nil =>
    intro m skip m' skip' h hr
    injection h with h
    cases h
    exact hr
  | cons hd rest ih =>
    obtain ⟨id, s⟩ := hd
    intro m skip m' skip' h hr
    cases hcm : checked_mul mult s with
    | none =>
      simp only [add_lhs, hcm] at h
      exact Option.noConfusion h
    | some ns =>
      cases hca : checked_add ((alLookup m id).getD 0) ns with
      | none =>
        simp only [add_lhs, hcm, hca] at h
        exact Option.noConfusion h
      | some ncurr =>
        simp only [add_lhs, hcm, hca] at h
        obtain ⟨hnc, hnr⟩ := checked_add_some hca
        apply ih _ _ _ _ h
        intro p hp
        by_cases hz : ncurr = 0
        · rw [if_pos hz] at hp
          exact hr p (mem_alRemove m id p hp)
        · rw [if_neg hz] at hp
          rcases mem_alSet m id ncurr p hp with rfl | hm
          · rw [← hnc] at hnr
            exact hnr
          · exact hr p hm

/-- The second loop fails exactly when a scaled coefficient or a running
sum leaves the i32 range. -/
theorem add_lhs_none_iff (mult : Int) (var : DomainId) :
    ∀ (l m : List (DomainId × Int)) (skip : Bool),
    (l.map Prod.fst).Nodup → (m.map Prod.fst).Nodup →
    (add_lhs mult var m l skip = none ↔
      ∃ p ∈ l, ¬inI32 (mult * p.2) ∨
               ¬inI32 ((alLookup m p.1).getD 0 + mult * p.2)) := by
  intro l
  induction l with
  | nil =>
    intro m skip _ _
    simp [add_lhs]
  | cons hd rest ih =>
    obtain ⟨id, s⟩ := hd
    intro m skip hndl hndm
    simp only [List.map_cons, List.nodup_cons] at hndl
    obtain ⟨hid_notin, hnd_rest⟩ := hndl
    cases hcm : checked_mul mult s with
    | none =>
      simp only [add_lhs, hcm]
      constructor
      · intro _
        exact ⟨(id, s), List.mem_cons_self _ _,
          Or.inl (checked_mul_none.mp hcm)⟩
      · intro _
        trivial
    | some ns =>
      obtain ⟨hns, hnsr⟩ := checked_mul_some hcm
      subst hns
      cases hca : checked_add ((alLookup m id).getD 0) (mult * s) with
      | none =>
        simp only [add_lhs, hcm, hca]
        constructor
        · intro _
          exact ⟨(id, s), List.mem_cons_self _ _,
            Or.inr (checked_add_none.mp hca)⟩
        · intro _
          trivial
      | some ncurr =>
        obtain ⟨hnc, hncr⟩ := checked_add_some hca
        simp only [add_lhs, hcm, hca]
        set m1 := if ncurr = 0 then alRemove m id else alSet m id ncurr with hm1
        have hndm1 : (m1.map Prod.fst).Nodup := by
          rw [hm1]
          by_cases hz : ncurr = 0
          · rw [if_pos hz]; exact nodup_alRemove m id hndm
          · rw [if_neg hz]; exact nodup_alSet m id ncurr hndm
        have hlook_ne : ∀ w, w ≠ id → alLookup m1 w = alLookup m w := by
          intro w hw
          rw [hm1]
          exact alContains_ne_of_update m id w ncurr hw
        rw [ih m1 _ hnd_rest hndm1]
        constructor
        · rintro ⟨p, hp, hbad⟩
          have hpne : p.1 ≠ id := by
            intro he
            exact hid_notin (he ▸ List.mem_map_of_mem Prod.fst hp)
          rw [hlook_ne p.1 hpne] at hbad
          exact ⟨p, List.mem_cons_of_mem _ hp, hbad⟩
        · rintro ⟨p, hp, hbad⟩
          rcases List.mem_cons.mp hp with rfl | hm
          · rcases hbad with hbad | hbad
            · exact absurd hnsr hbad
            · exact absurd hncr hbad
          · have hpne : p.1 ≠ id := by
              intro he
              exact hid_notin (he ▸ List.mem_map_of_mem Prod.fst hm)
            refine ⟨p, hm, ?_⟩
            rw [hlook_ne p.1 hpne]
            exact hbad

/-! Anatomy of apply_cut. -/

theorem find_variable_scale_eq_alLookup (c : LinearLessOrEqual)
    (v : DomainId) : find_variable_scale c v = alLookup c.lhs v := rfl

theorem natAbs_abs (x : Int) : |x|.natAbs = x.natAbs := by
  rw [Int.abs_eq_natAbs]
  exact Int.natAbs_ofNat x.natAbs

/-- On in-range nonzero scales the two cut multipliers are the exact
quotients of the absolute scales by their gcd, and are positive. -/
theorem cut_mult_spec (c1s c2s : Int) (h1 : c1s ≠ 0) (h2 : c2s ≠ 0)
    (hr1 : c1s.natAbs < 2 ^ 31) (hr2 : c2s.natAbs < 2 ^ 31) :
    0 < cut_mult_c1 c1s c2s ∧ 0 < cut_mult_c2 c1s c2s ∧
    cut_mult_c1 c1s c2s * (Int.gcd c1s c2s : Int) = |c2s| ∧
    cut_mult_c2 c1s c2s * (Int.gcd c1s c2s : Int) = |c1s| := by
  have hg : gcd |c1s| |c2s| = (Int.gcd c1s c2s : Int) := by
    have := gcd_eq_int_gcd_i32 |c1s| |c2s|
      (by rw [natAbs_abs]; omega) (by rw [natAbs_abs]; omega)
    rw [this]
    unfold Int.gcd
    rw [natAbs_abs, natAbs_abs]
  have hgpos : 0 < (Int.gcd c1s c2s : Int) := by
    have : Int.gcd c1s c2s ≠ 0 := by
      intro h
      exact h1 (Int.gcd_eq_zero_iff.mp h).1
    omega
  have hd2 : (Int.gcd c1s c2s : Int) ∣ |c2s| := by
    rw [Int.abs_eq_natAbs]
    exact Int.natCast_dvd_natCast.mpr (Nat.gcd_dvd_right _ _)
  have hd1 : (Int.gcd c1s c2s : Int) ∣ |c1s| := by
    rw [Int.abs_eq_natAbs]
    exact Int.natCast_dvd_natCast.mpr (Nat.gcd_dvd_left _ _)
  obtain ⟨k2, hk2⟩ := hd2
  obtain ⟨k1, hk1⟩ := hd1
  have hm1 : cut_mult_c1 c1s c2s = k2 := by
    unfold cut_mult_c1
    rw [hg, hk2, Int.mul_tdiv_cancel_left _ (by omega)]
  have hm2 : cut_mult_c2 c1s c2s = k1 := by
    unfold cut_mult_c2
    rw [hg, hk1, Int.mul_tdiv_cancel_left _ (by omega)]
  have hk2pos : 0 < k2 := by
    by_contra hle
    push_neg at hle
    have : |c2s| ≤ 0 := by
      rw [hk2]
      exact mul_nonpos_of_nonneg_of_nonpos (by omega) hle
    have := abs_pos.mpr h2
    omega
  have hk1pos : 0 < k1 := by
    by_contra hle
    push_neg at hle
    have : |c1s| ≤ 0 := by
      rw [hk1]
      exact mul_nonpos_of_nonneg_of_nonpos (by omega) hle
    have := abs_pos.mpr h1
    omega
  refine ⟨by rw [hm1]; exact hk2pos, by rw [hm2]; exact hk1pos, ?_, ?_⟩
  · rw [hm1, hk2]; ring
  · rw [hm2, hk1]; ring

/-- Inversion of a successful apply_cut into its stages. -/
theorem apply_cut_success_inv (var : DomainId) (c1 c2 : LinearLessOrEqual)
    (c1s c2s : Int) (ineq : LinearLessOrEqual) (skip : Bool)
    (hc1 : find_variable_scale c1 var = some c1s)
    (hc2 : find_variable_scale c2 var = some c2s)
    (h : apply_cut var c1 c2 = some (.success ineq skip)) :
    ∃ m0 merged r1 r2 nr,
      scale_lhs (cut_mult_c1 c1s c2s) c1.lhs = some m0 ∧
      add_lhs (cut_mult_c2 c1s c2s) var m0 c2.lhs true = some (merged, skip) ∧
      checked_mul c1.rhs (cut_mult_c1 c1s c2s) = some r1 ∧
      checked_mul c2.rhs (cut_mult_c2 c1s c2s) = some r2 ∧
      checked_add r1 r2 = some nr ∧
      merged.length ≠ 0 ∧
      ineq = ⟨sortById
          (merged.map (fun p => (p.1, div_ceil p.2 (norm_gcd merged nr)))),
        div_ceil nr (norm_gcd merged nr)⟩ := by
  simp only [apply_cut, hc1, hc2] at h
  cases hscale : scale_lhs (cut_mult_c1 c1s c2s) c1.lhs with
  | none =>
    simp only [hscale] at h
    injection h with h
    exact CutResult.noConfusion h
  | some m0 =>
    simp only [hscale] at h
    cases hadd : add_lhs (cut_mult_c2 c1s c2s) var m0 c2.lhs true with
    | none =>
      simp only [hadd] at h
      injection h with h
      exact CutResult.noConfusion h
    | some pr =>
      obtain ⟨merged, skip0⟩ := pr
      simp only [hadd] at h
      cases hr1 : checked_mul c1.rhs (cut_mult_c1 c1s c2s) with
      | none =>
        simp only [hr1] at h
        injection h with h
        exact CutResult.noConfusion h
      | some r1 =>
        simp only [hr1] at h
        cases hr2 : checked_mul c2.rhs (cut_mult_c2 c1s c2s) with
        | none =>
          simp only [hr2] at h
          injection h with h
          exact CutResult.noConfusion h
        | some r2 =>
          simp only [hr2] at h
          cases hra : checked_add r1 r2 with
          | none =>
            simp only [hra] at h
            injection h with h
            exact CutResult.noConfusion h
          | some nr =>
            simp only [hra] at h
            by_cases hlen : merged.length = 0
            · rw [if_pos hlen] at h
              by_cases hneg : nr < 0
              · rw [if_pos hneg] at h
                injection h with h
                exact CutResult.noConfusion h
              · rw [if_neg hneg] at h
                injection h with h
                exact CutResult.noConfusion h
            · rw [if_neg hlen] at h
              injection h with h
              injection h with hineq hskip
              subst hskip
              exact ⟨m0, merged, r1, r2, nr, rfl, hadd, rfl, rfl, hra,
                hlen, hineq.symm⟩

/-- Inversion of apply_cut on the empty-lhs outcomes. -/
theorem apply_cut_empty_inv (var : DomainId) (c1 c2 : LinearLessOrEqual)
    (c1s c2s : Int) (r : CutResult)
    (hc1 : find_variable_scale c1 var = some c1s)
    (hc2 : find_variable_scale c2 var = some c2s)
    (hr : r = .contradiction ∨ r = .nothingLearned)
    (h : apply_cut var c1 c2 = some r) :
    ∃ m0 r1 r2 nr,
      scale_lhs (cut_mult_c1 c1s c2s) c1.lhs = some m0 ∧
      (∃ skip, add_lhs (cut_mult_c2 c1s c2s) var m0 c2.lhs true =
        some ([], skip)) ∧
      checked_mul c1.rhs (cut_mult_c1 c1s c2s) = some r1 ∧
      checked_mul c2.rhs (cut_mult_c2 c1s c2s) = some r2 ∧
      checked_add r1 r2 = some nr ∧
      (r = .contradiction ↔ nr < 0) := by
  simp only [apply_cut, hc1, hc2] at h
  cases hscale : scale_lhs (cut_mult_c1 c1s c2s) c1.lhs with
  | none =>
    simp only [hscale] at h
    injection h with h
    rcases hr with rfl | rfl <;> exact CutResult.noConfusion h
  | some m0 =>
    simp only [hscale] at h
    cases hadd : add_lhs (cut_mult_c2 c1s c2s) var m0 c2.lhs true with
    | none =>
      simp only [hadd] at h
      injection h with h
      rcases hr with rfl | rfl <;> exact CutResult.noConfusion h
    | some pr =>
      obtain ⟨merged, skip0⟩ := pr
      simp only [hadd] at h
      cases hr1 : checked_mul c1.rhs (cut_mult_c1 c1s c2s) with
      | none =>
        simp only [hr1] at h
        injection h with h
        rcases hr with rfl | rfl <;> exact CutResult.noConfusion h
      | some r1 =>
        simp only [hr1] at h
        cases hr2 : checked_mul c2.rhs (cut_mult_c2 c1s c2s) with
        | none =>
          simp only [hr2] at h
          injection h with h
          rcases hr with rfl | rfl <;> exact CutResult.noConfusion h
        | some r2 =>
          simp only [hr2] at h
          cases hra : checked_add r1 r2 with
          | none =>
            simp only [hra] at h
            injection h with h
            rcases hr with rfl | rfl <;> exact CutResult.noConfusion h
          | some nr =>
            simp only [hra] at h
            by_cases hlen : merged.length = 0
            · rw [if_pos hlen] at h
              have hmerged : merged = [] := List.length_eq_zero.mp hlen
              subst hmerged
              refine ⟨m0, r1, r2, nr, rfl, ⟨skip0, hadd⟩, rfl, rfl, hra, ?_⟩
              by_cases hneg : nr < 0
              · rw [if_pos hneg] at h
                injection h with h
                subst h
                simp [hneg]
              · rw [if_neg hneg] at h
                injection h with h
                subst h
                constructor
                · intro hcon
                  exact CutResult.noConfusion hcon
                · intro hlt
                  exact absurd hlt hneg
            · rw [if_neg hlen] at h
              injection h with h
              rcases hr with rfl | rfl <;> exact CutResult.noConfusion h

/-- Lookup characterization of the merged (pre-normalization) lhs: every
variable carries the termwise sum of the scaled coefficients, entries with
sum 0 are absent. -/
theorem cut_merged_lookup (var : DomainId) (c1 c2 : LinearLessOrEqual)
    (c1s c2s : Int) (m0 merged : List (DomainId × Int)) (skip : Bool)
    (hWF1 : WF c1) (hWF2 : WF c2)
    (hm1pos : 0 < cut_mult_c1 c1s c2s) (hm2pos : 0 < cut_mult_c2 c1s c2s)
    (hscale : scale_lhs (cut_mult_c1 c1s c2s) c1.lhs = some m0)
    (hadd : add_lhs (cut_mult_c2 c1s c2s) var m0 c2.lhs true =
      some (merged, skip)) :
    (∀ w, alLookup merged w =
      (if cut_mult_c1 c1s c2s * coef c1.lhs w +
          cut_mult_c2 c1s c2s * coef c2.lhs w = 0
       then none
       else some (cut_mult_c1 c1s c2s * coef c1.lhs w +
          cut_mult_c2 c1s c2s * coef c2.lhs w))) ∧
    (merged.map Prod.fst).Nodup := by
  obtain ⟨hnd1, hcz1, _⟩ := hWF1
  obtain ⟨hnd2, hcz2, _⟩ := hWF2
  obtain ⟨hm0eq, _⟩ := scale_lhs_some _ _ _ hscale
  have hndm0 : (m0.map Prod.fst).Nodup := by
    rw [hm0eq, List.map_map]
    exact hnd1
  have hm0look : ∀ w, alLookup m0 w =
      (alLookup c1.lhs w).map (fun s => cut_mult_c1 c1s c2s * s) := by
    intro w
    rw [hm0eq]
    exact alLookup_map_values _ c1.lhs w
  obtain ⟨hndM, hout, hin, _⟩ :=
    add_lhs_some_spec _ var c2.lhs m0 true merged skip hadd hnd2 hndm0
  refine ⟨?_, hndM⟩
  intro w
  by_cases hw2 : w ∈ c2.lhs.map Prod.fst
  · rw [hin w hw2]
    have hm0c : (alLookup m0 w).getD 0 = cut_mult_c1 c1s c2s * coef c1.lhs w := by
      rw [hm0look w]
      unfold coef
      cases alLookup c1.lhs w with
      | none => simp
      | some s => simp
    rw [hm0c]
  · rw [hout w hw2, hm0look w]
    have hc2z : coef c2.lhs w = 0 := by
      unfold coef
      rw [alLookup_eq_none_of_not_mem c2.lhs w hw2]
      rfl
    rw [hc2z, mul_zero, add_zero]
    by_cases hw1 : w ∈ c1.lhs.map Prod.fst
    · obtain ⟨p, hp, hpw⟩ := List.mem_map.mp hw1
      have hl1 : alLookup c1.lhs w = some p.2 := by
        rw [← hpw]
        exact alLookup_of_mem_nodup c1.lhs p hnd1 hp
      have hpz : p.2 ≠ 0 := (hcz1 p hp).1
      have hco : coef c1.lhs w = p.2 := by
        unfold coef
        rw [hl1]
        rfl
      rw [hl1, hco]
      have hne : cut_mult_c1 c1s c2s * p.2 ≠ 0 := mul_ne_zero (by omega) hpz
      rw [if_neg hne]
      rfl
    · rw [alLookup_eq_none_of_not_mem c1.lhs w hw1]
      have hco : coef c1.lhs w = 0 := by
        unfold coef
        rw [alLookup_eq_none_of_not_mem c1.lhs w hw1]
        rfl
      rw [hco, mul_zero]
      simp

/-- Cancellation: with opposite signs the two scaled coefficients of the
eliminated variable sum to zero. -/
theorem cut_cancels (c1s c2s : Int)
    (hr1 : c1s.natAbs < 2 ^ 31) (hr2 : c2s.natAbs < 2 ^ 31)
    (hsign : (0 < c1s ∧ c2s < 0) ∨ (c1s < 0 ∧ 0 < c2s)) :
    cut_mult_c1 c1s c2s * c1s + cut_mult_c2 c1s c2s * c2s = 0 := by
  have h1 : c1s ≠ 0 := by rcases hsign with ⟨h, _⟩ | ⟨h, _⟩ <;> omega
  have h2 : c2s ≠ 0 := by rcases hsign with ⟨_, h⟩ | ⟨_, h⟩ <;> omega
  obtain ⟨_, _, hmc1, hmc2⟩ := cut_mult_spec c1s c2s h1 h2 hr1 hr2
  have hgpos : 0 < (Int.gcd c1s c2s : Int) := by
    have : Int.gcd c1s c2s ≠ 0 := by
      intro h
      exact h1 (Int.gcd_eq_zero_iff.mp h).1
    omega
  apply mul_left_cancel₀ (show (Int.gcd c1s c2s : Int) ≠ 0 by omega)
  rw [mul_zero, mul_add]
  have e1 : (Int.gcd c1s c2s : Int) * (cut_mult_c1 c1s c2s * c1s) = |c2s| * c1s := by
    rw [← hmc1]; ring
  have e2 : (Int.gcd c1s c2s : Int) * (cut_mult_c2 c1s c2s * c2s) = |c1s| * c2s := by
    rw [← hmc2]; ring
  rw [e1, e2]
  rcases hsign with ⟨hp, hn⟩ | ⟨hn, hp⟩
  · rw [abs_of_neg hn, abs_of_pos hp]
    ring
  · rw [abs_of_pos hp, abs_of_neg hn]
    ring

theorem WF_scale_range (c : LinearLessOrEqual) (v : DomainId) (s : Int)
    (hWF : WF c) (hfind : find_variable_scale c v = some s) :
    s ≠ 0 ∧ s.natAbs < 2 ^ 31 := by
  rw [find_variable_scale_eq_alLookup] at hfind
  have hmem := alLookup_mem c.lhs v s hfind
  exact hWF.2.1 (v, s) hmem

/-- C1: for every variable v and inequalities C, R in which v occurs with
coefficients c1 and c2 of opposite signs, a successful apply_cut(v, C, R)
computes (prior to normalization) the termwise sum m1*C.lhs + m2*R.lhs with
g = gcd(|c1|, |c2|), m1 = |c2|/g, m2 = |c1|/g (stated multiplicatively:
m1*g = |c2| and m2*g = |c1|); v gets summed coefficient 0 and is removed
from the lhs, as is every other variable whose summed coefficient is 0; the
rhs before normalization is m1*C.rhs + m2*R.rhs; the returned inequality is
the normalization of that merged form. -/
theorem C1_cut_termwise_sum (var : DomainId) (c1 c2 : LinearLessOrEqual)
    (c1s c2s : Int) (ineq : LinearLessOrEqual) (skip : Bool)
    (hWF1 : WF c1) (hWF2 : WF c2)
    (hc1 : find_variable_scale c1 var = some c1s)
    (hc2 : find_variable_scale c2 var = some c2s)
    (hsign : (0 < c1s ∧ c2s < 0) ∨ (c1s < 0 ∧ 0 < c2s))
    (h : apply_cut var c1 c2 = some (.success ineq skip)) :
    ∃ merged nr,
      cut_mult_c1 c1s c2s * (Int.gcd c1s c2s : Int) = |c2s| ∧
      cut_mult_c2 c1s c2s * (Int.gcd c1s c2s : Int) = |c1s| ∧
      (∀ w, alLookup merged w =
        (if cut_mult_c1 c1s c2s * coef c1.lhs w +
            cut_mult_c2 c1s c2s * coef c2.lhs w = 0
         then none
         else some (cut_mult_c1 c1s c2s * coef c1.lhs w +
            cut_mult_c2 c1s c2s * coef c2.lhs w))) ∧
      alLookup merged var = none ∧
      nr = cut_mult_c1 c1s c2s * c1.rhs + cut_mult_c2 c1s c2s * c2.rhs ∧
      ineq = ⟨sortById (merged.map
          (fun p => (p.1, div_ceil p.2 (norm_gcd merged nr)))),
        div_ceil nr (norm_gcd merged nr)⟩ := by
  obtain ⟨h1z, hr1⟩ := WF_scale_range c1 var c1s hWF1 hc1
  obtain ⟨h2z, hr2⟩ := WF_scale_range c2 var c2s hWF2 hc2
  obtain ⟨hm1pos, hm2pos, hmc1, hmc2⟩ := cut_mult_spec c1s c2s h1z h2z hr1 hr2
  obtain ⟨m0, merged, r1, r2, nr, hscale, hadd, hcr1, hcr2, hca, hlen, hineq⟩ :=
    apply_cut_success_inv var c1 c2 c1s c2s ineq skip hc1 hc2 h
  obtain ⟨hlook, _⟩ := cut_merged_lookup var c1 c2 c1s c2s m0 merged skip
    hWF1 hWF2 hm1pos hm2pos hscale hadd
  refine ⟨merged, nr, hmc1, hmc2, hlook, ?_, ?_, hineq⟩
  · rw [hlook var]
    have hcoef1 : coef c1.lhs var = c1s := by
      unfold coef
      rw [← find_variable_scale_eq_alLookup, hc1]
      rfl
    have hcoef2 : coef c2.lhs var = c2s := by
      unfold coef
      rw [← find_variable_scale_eq_alLookup, hc2]
      rfl
    rw [hcoef1, hcoef2, if_pos (cut_cancels c1s c2s hr1 hr2 hsign)]
  · obtain ⟨he1, _⟩ := checked_mul_some hcr1
    obtain ⟨he2, _⟩ := checked_mul_some hcr2
    obtain ⟨he3, _⟩ := checked_add_some hca
    rw [he3, he1, he2]
    ring

/-- Witness for C1 at the first Rust unit test of apply_cut. -/
theorem C1_cut_termwise_sum_witness :
    ∃ merged nr,
      cut_mult_c1 10 (-4) * (Int.gcd 10 (-4) : Int) = |(-4 : Int)| ∧
      cut_mult_c2 10 (-4) * (Int.gcd 10 (-4) : Int) = |(10 : Int)| ∧
      (∀ w, alLookup merged w =
        (if cut_mult_c1 10 (-4) * coef [(0, 10), (1, 2), (2, 4), (3, -5)] w +
            cut_mult_c2 10 (-4) * coef [(0, -4), (1, -4), (2, 6), (4, 8)] w = 0
         then none
         else some (cut_mult_c1 10 (-4) * coef [(0, 10), (1, 2), (2, 4), (3, -5)] w +
            cut_mult_c2 10 (-4) * coef [(0, -4), (1, -4), (2, 6), (4, 8)] w))) ∧
      alLookup merged 0 = none ∧
      nr = cut_mult_c1 10 (-4) * 12 + cut_mult_c2 10 (-4) * (-6) ∧
      ({ lhs := [(1, -8), (2, 19), (3, -5), (4, 20)], rhs := -3 } :
          LinearLessOrEqual) = ⟨sortById (merged.map
          (fun p => (p.1, div_ceil p.2 (norm_gcd merged nr)))),
        div_ceil nr (norm_gcd merged nr)⟩ :=
  C1_cut_termwise_sum 0
    ⟨[(0, 10), (1, 2), (2, 4), (3, -5)], 12⟩
    ⟨[(0, -4), (1, -4), (2, 6), (4, 8)], -6⟩
    10 (-4)
    ⟨[(1, -8), (2, 19), (3, -5), (4, 20)], -3⟩ false
    (by decide) (by decide) (by decide) (by decide)
    (Or.inl (by decide)) (by decide)

/-! Normalization facts for C3. -/

theorem foldl_gcd_spec : ∀ (l : List Int) (seed : Int), seed ≠ 0 →
    seed.natAbs ≤ 2 ^ 31 → (∀ x ∈ l, x.natAbs ≤ 2 ^ 31) →
    (l.foldl (fun a b => gcd a b) seed ≠ 0 ∧
     (l.foldl (fun a b => gcd a b) seed).natAbs ≤ seed.natAbs ∧
     (l.foldl (fun a b => gcd a b) seed) ∣ seed ∧
     (∀ x ∈ l, (l.foldl (fun a b => gcd a b) seed) ∣ x)) := by
  intro l
  induction l with
  | nil =>
    intro seed hne hr _
    refine ⟨hne, le_refl _, dvd_refl _, ?_⟩
    intro x hx
    exact absurd hx (List.not_mem_nil x)
  | cons v rest ih =>
    intro seed hne hr hl
    have hv : v.natAbs ≤ 2 ^ 31 := hl v (List.mem_cons_self _ _)
    have hstep : gcd seed v = (Int.gcd seed v : Int) :=
      gcd_eq_int_gcd_i32 seed v hr hv
    have hgne : (Int.gcd seed v : Int) ≠ 0 := by
      have : Int.gcd seed v ≠ 0 := by
        intro h
        exact hne (Int.gcd_eq_zero_iff.mp h).1
      omega
    have hgdvd_seed : (Int.gcd seed v : Int) ∣ seed := Int.gcd_dvd_left
    have hgdvd_v : (Int.gcd seed v : Int) ∣ v := Int.gcd_dvd_right
    have hgabs : (Int.gcd seed v : Int).natAbs ≤ seed.natAbs := by
      have hd : (Int.gcd seed v : Int).natAbs ∣ seed.natAbs :=
        Int.natAbs_dvd_natAbs.mpr hgdvd_seed
      exact Nat.le_of_dvd (by omega) hd
    have hfold : (v :: rest).foldl (fun a b => gcd a b) seed =
        rest.foldl (fun a b => gcd a b) (gcd seed v) := rfl
    rw [hfold, hstep]
    obtain ⟨r1, r2, r3, r4⟩ := ih (Int.gcd seed v) hgne (le_trans hgabs hr)
      (fun x hx => hl x (List.mem_cons_of_mem _ hx))
    refine ⟨r1, le_trans r2 hgabs, dvd_trans r3 hgdvd_seed, ?_⟩
    intro x hx
    rcases List.mem_cons.mp hx with rfl | hm
    · exact dvd_trans r3 hgdvd_v
    · exact r4 x hm

/-- The normalization divisor is positive and divides every summed
coefficient and the summed rhs. -/
theorem norm_gcd_spec (merged : List (DomainId × Int)) (nr : Int)
    (hne : merged ≠ [])
    (hvals : ∀ p ∈ merged, p.2 ≠ 0 ∧ p.2.natAbs ≤ 2 ^ 31)
    (hnr : nr.natAbs ≤ 2 ^ 31) :
    0 < norm_gcd merged nr ∧ (∀ p ∈ merged, norm_gcd merged nr ∣ p.2) ∧
    norm_gcd merged nr ∣ nr := by
  match merged, hne with
  | p :: rest, _ =>
    have hfold := foldl_gcd_spec (rest.map (fun q => q.2)) p.2
      (hvals p (List.mem_cons_self _ _)).1
      (hvals p (List.mem_cons_self _ _)).2
      (by
        intro x hx
        obtain ⟨q, hq, rfl⟩ := List.mem_map.mp hx
        exact (hvals q (List.mem_cons_of_mem _ hq)).2)
    set g0 := (rest.map (fun q => q.2)).foldl (fun a b => gcd a b) p.2 with hg0
    obtain ⟨hg0ne, hg0abs, hg0p, hg0rest⟩ := hfold
    have hred : norm_gcd (p :: rest) nr = gcd g0 nr := by
      unfold norm_gcd reduce_gcd
      rfl
    have hstep : gcd g0 nr = (Int.gcd g0 nr : Int) :=
      gcd_eq_int_gcd_i32 g0 nr
        (le_trans hg0abs (hvals p (List.mem_cons_self _ _)).2) hnr
    have hGne : (Int.gcd g0 nr : Int) ≠ 0 := by
      have : Int.gcd g0 nr ≠ 0 := by
        intro h
        exact hg0ne (Int.gcd_eq_zero_iff.mp h).1
      omega
    have hGpos : 0 < (Int.gcd g0 nr : Int) := by omega
    have hGg0 : (Int.gcd g0 nr : Int) ∣ g0 := Int.gcd_dvd_left
    have hGnr : (Int.gcd g0 nr : Int) ∣ nr := Int.gcd_dvd_right
    rw [hred, hstep]
    refine ⟨hGpos, ?_, hGnr⟩
    intro q hq
    rcases List.mem_cons.mp hq with rfl | hm
    · exact dvd_trans hGg0 hg0p
    · exact dvd_trans hGg0 (hg0rest q.2 (List.mem_map_of_mem _ hm))

theorem insertById_perm (p : DomainId × Int) :
    ∀ l : List (DomainId × Int), (insertById p l).Perm (p :: l) := by
  intro l
  induction l with
  | nil => exact List.Perm.refl _
  | cons q rest ih =>
    unfold insertById
    by_cases h : p.1 ≤ q.1
    · rw [if_pos h]
    · rw [if_neg h]
      exact (ih.cons q).trans (List.Perm.swap p q rest)

theorem sortById_perm : ∀ l : List (DomainId × Int), (sortById l).Perm l := by
  intro l
  induction l with
  | nil => exact List.Perm.refl _
  | cons p rest ih =>
    exact (insertById_perm p (sortById rest)).trans (ih.cons p)

theorem eval_lhs_perm (l1 l2 : List (DomainId × Int)) (x : DomainId → Int)
    (h : l1.Perm l2) : eval_lhs l1 x = eval_lhs l2 x := by
  unfold eval_lhs
  exact (h.map (fun p => p.2 * x p.1)).sum_eq

/-- Scaling back the normalized lhs by the divisor recovers the merged
lhs value. -/
theorem eval_lhs_norm (merged : List (DomainId × Int)) (G : Int) (hG : G ≠ 0)
    (hdvd : ∀ p ∈ merged, G ∣ p.2) (x : DomainId → Int) :
    G * eval_lhs (merged.map (fun p => (p.1, div_ceil p.2 G))) x =
      eval_lhs merged x := by
  induction merged with
  | nil => simp [eval_lhs]
  | cons p rest ih =>
    have hh := hdvd p (List.mem_cons_self _ _)
    have hrec := ih (fun q hq => hdvd q (List.mem_cons_of_mem _ hq))
    unfold eval_lhs at hrec ⊢
    simp only [List.map_cons, List.sum_cons]
    rw [mul_add, hrec]
    congr 1
    have he : div_ceil p.2 G * G = p.2 := div_ceil_of_dvd p.2 G hh hG
    calc G * (div_ceil p.2 G * x p.1) = (div_ceil p.2 G * G) * x p.1 := by ring
      _ = p.2 * x p.1 := by rw [he]

theorem inI32_natAbs_le {x : Int} (h : inI32 x) : x.natAbs ≤ 2 ^ 31 := by
  obtain ⟨h1, h2⟩ := h
  simp only [i32Min, i32Max] at h1 h2
  omega

/-- The merged (pre-normalization) coefficients of a successful cut are
nonzero i32 values. -/
theorem cut_merged_values (var : DomainId) (c1 c2 : LinearLessOrEqual)
    (c1s c2s : Int) (m0 merged : List (DomainId × Int)) (skip : Bool)
    (hWF1 : WF c1) (hWF2 : WF c2)
    (hm1pos : 0 < cut_mult_c1 c1s c2s) (hm2pos : 0 < cut_mult_c2 c1s c2s)
    (hscale : scale_lhs (cut_mult_c1 c1s c2s) c1.lhs = some m0)
    (hadd : add_lhs (cut_mult_c2 c1s c2s) var m0 c2.lhs true =
      some (merged, skip)) :
    ∀ p ∈ merged, p.2 ≠ 0 ∧ p.2.natAbs ≤ 2 ^ 31 := by
  obtain ⟨hlook, hndM⟩ := cut_merged_lookup var c1 c2 c1s c2s m0 merged skip
    hWF1 hWF2 hm1pos hm2pos hscale hadd
  obtain ⟨hm0eq, hm0rng⟩ := scale_lhs_some _ _ _ hscale
  have hm0r : ∀ p ∈ m0, inI32 p.2 := by
    intro p hp
    rw [hm0eq] at hp
    obtain ⟨q, hq, rfl⟩ := List.mem_map.mp hp
    exact hm0rng q hq
  have hrng : ∀ p ∈ merged, inI32 p.2 :=
    add_lhs_range _ var c2.lhs m0 true merged skip hadd hm0r
  intro p hp
  refine ⟨?_, inI32_natAbs_le (hrng p hp)⟩
  have hself := alLookup_of_mem_nodup merged p hndM hp
  rw [hlook p.1] at hself
  by_cases hz : cut_mult_c1 c1s c2s * coef c1.lhs p.1 +
      cut_mult_c2 c1s c2s * coef c2.lhs p.1 = 0
  · rw [if_pos hz] at hself
    exact Option.noConfusion hself
  · rw [if_neg hz] at hself
    injection hself with hv
    rw [hv] at hz
    exact hz

/-- C3: after a successful cut the returned inequality is the merged form
divided by the gcd of all summed coefficients together with the summed rhs
(ceiling division on the rhs); that gcd is positive and divides every
summed coefficient exactly, so each normalized coefficient is the exact
quotient, and every integer assignment satisfying the pre-normalization
inequality satisfies the normalized one. -/
theorem C3_normalization (var : DomainId) (c1 c2 : LinearLessOrEqual)
    (c1s c2s : Int) (ineq : LinearLessOrEqual) (skip : Bool)
    (hWF1 : WF c1) (hWF2 : WF c2)
    (hc1 : find_variable_scale c1 var = some c1s)
    (hc2 : find_variable_scale c2 var = some c2s)
    (h : apply_cut var c1 c2 = some (.success ineq skip)) :
    ∃ merged nr,
      ineq = ⟨sortById (merged.map
          (fun p => (p.1, div_ceil p.2 (norm_gcd merged nr)))),
        div_ceil nr (norm_gcd merged nr)⟩ ∧
      0 < norm_gcd merged nr ∧
      (∀ p ∈ merged, norm_gcd merged nr ∣ p.2 ∧
        div_ceil p.2 (norm_gcd merged nr) * norm_gcd merged nr = p.2) ∧
      (∀ x : DomainId → Int, eval_lhs merged x ≤ nr →
        eval_lhs ineq.lhs x ≤ ineq.rhs) := by
  obtain ⟨h1z, hsr1⟩ := WF_scale_range c1 var c1s hWF1 hc1
  obtain ⟨h2z, hsr2⟩ := WF_scale_range c2 var c2s hWF2 hc2
  obtain ⟨hm1pos, hm2pos, _, _⟩ := cut_mult_spec c1s c2s h1z h2z hsr1 hsr2
  obtain ⟨m0, merged, r1, r2, nr, hscale, hadd, hcr1, hcr2, hca, hlen, hineq⟩ :=
    apply_cut_success_inv var c1 c2 c1s c2s ineq skip hc1 hc2 h
  have hvals := cut_merged_values var c1 c2 c1s c2s m0 merged skip
    hWF1 hWF2 hm1pos hm2pos hscale hadd
  have hnrr : nr.natAbs ≤ 2 ^ 31 := by
    obtain ⟨he, hrg⟩ := checked_add_some hca
    rw [he]
    exact inI32_natAbs_le hrg
  have hne : merged ≠ [] := by
    intro he
    apply hlen
    rw [he]
    rfl
  obtain ⟨hGpos, hGdvd, hGnr⟩ := norm_gcd_spec merged nr hne hvals hnrr
  have hGne : norm_gcd merged nr ≠ 0 := by omega
  refine ⟨merged, nr, hineq, hGpos, ?_, ?_⟩
  · intro p hp
    exact ⟨hGdvd p hp, div_ceil_of_dvd p.2 _ (hGdvd p hp) hGne⟩
  · intro x hsat
    simp only [hineq]
    rw [eval_lhs_perm _ _ x (sortById_perm _)]
    apply le_of_mul_le_mul_left ?_ hGpos
    rw [eval_lhs_norm merged _ hGne hGdvd x]
    have hnr_eq : div_ceil nr (norm_gcd merged nr) * norm_gcd merged nr = nr :=
      div_ceil_of_dvd nr _ hGnr hGne
    calc eval_lhs merged x ≤ nr := hsat
      _ = div_ceil nr (norm_gcd merged nr) * norm_gcd merged nr := hnr_eq.symm
      _ = norm_gcd merged nr * div_ceil nr (norm_gcd merged nr) := by ring

/-- Witness for C3 at the second Rust unit test of apply_cut. -/
theorem C3_normalization_witness :
    ∃ merged nr,
      ({ lhs := [(1, -2), (2, 10), (3, -5), (4, 8)], rhs := 5 } :
          LinearLessOrEqual) = ⟨sortById (merged.map
          (fun p => (p.1, div_ceil p.2 (norm_gcd merged nr)))),
        div_ceil nr (norm_gcd merged nr)⟩ ∧
      0 < norm_gcd merged nr ∧
      (∀ p ∈ merged, norm_gcd merged nr ∣ p.2 ∧
        div_ceil p.2 (norm_gcd merged nr) * norm_gcd merged nr = p.2) ∧
      (∀ x : DomainId → Int, eval_lhs merged x ≤ nr →
        eval_lhs ({ lhs := [(1, -2), (2, 10), (3, -5), (4, 8)], rhs := 5 } :
          LinearLessOrEqual).lhs x ≤
        ({ lhs := [(1, -2), (2, 10), (3, -5), (4, 8)], rhs := 5 } :
          LinearLessOrEqual).rhs) :=
  C3_normalization 0
    ⟨[(0, -4), (1, 2), (2, 4), (3, -5)], 10⟩
    ⟨[(0, 4), (1, -4), (2, 6), (4, 8)], -5⟩
    (-4) 4
    ⟨[(1, -2), (2, 10), (3, -5), (4, 8)], 5⟩ false
    (by decide) (by decide) (by decide) (by decide) (by decide)

/-! Model of LinearLessOrEqual bound evaluation
(engine/cp/propagation/linear_less_or_equal.rs) and of
IntSatConflictResolver::resolve_conflict.  Bounds at a trail position are
abstract functions (lower_bound_at_trail_position and
upper_bound_at_trail_position live outside the translated sources); the
i64 sums of the source are exact in Int. -/

/-- C2 (amended): a cut with empty summed lhs is classified by the sign of
the summed rhs (negative: Contradiction, otherwise NothingLearned); on
Contradiction the resolver returns a learned nogood holding the single
trivially-TRUE predicate (an always-violated nogood signalling global
unsatisfiability) with backjump level 0, and on NothingLearned it falls
back to the resolution resolver. -/
theorem C2_empty_cut_classification
    (var : DomainId) (c1 c2 : LinearLessOrEqual) (c1s c2s : Int)
    (m0 : List (DomainId × Int)) (skip : Bool) (r1 r2 nr : Int)
    (hc1 : find_variable_scale c1 var = some c1s)
    (hc2 : find_variable_scale c2 var = some c2s)
    (hscale : scale_lhs (cut_mult_c1 c1s c2s) c1.lhs = some m0)
    (hadd : add_lhs (cut_mult_c2 c1s c2s) var m0 c2.lhs true = some ([], skip))
    (hmr1 : checked_mul c1.rhs (cut_mult_c1 c1s c2s) = some r1)
    (hmr2 : checked_mul c2.rhs (cut_mult_c2 c1s c2s) = some r2)
    (hca : checked_add r1 r2 = some nr) :
    ((nr < 0 → apply_cut var c1 c2 = some .contradiction) ∧
     (0 ≤ nr → apply_cut var c1 c2 = some .nothingLearned)) ∧
    (∀ (ctx : Context) (c : LinearLessOrEqual) (ti : Nat)
       (entry : TrailEntry) (ni rr : Nat) (R : LinearLessOrEqual)
       (sc1 sc2 : Int),
      find_trail_entry ctx c ti = some (.found entry ni) →
      entry.reason = some rr →
      ctx.reason_explanation rr = some R →
      find_variable_scale c entry.var = some sc1 →
      find_variable_scale R entry.var = some sc2 →
      ¬((0 < sc1) ↔ (0 < sc2)) →
      (apply_cut entry.var c R = some .contradiction →
        resolve_step ctx c ti =
          some (.done (.result (.nogood [Predicate.triviallyTrue] 0)))) ∧
      (apply_cut entry.var c R = some .nothingLearned →
        resolve_step ctx c ti = some (.done (.fallback "Nothing learned")))) ∧
    (∀ (ctx : Context) (fuel : Nat) (c : LinearLessOrEqual) (ti : Nat)
       (r : ResolveOutcome),
      resolve_step ctx c ti = some (.done r) →
      resolve_loop ctx (fuel + 1) c ti = some r) := by
  refine ⟨⟨?_, ?_⟩, ?_, ?_⟩
  · intro hneg
    simp only [apply_cut, hc1, hc2, hscale, hadd, hmr1, hmr2, hca]
    rw [if_pos (show ([] : List (DomainId × Int)).length = 0 from rfl),
      if_pos hneg]
  · intro hpos
    simp only [apply_cut, hc1, hc2, hscale, hadd, hmr1, hmr2, hca]
    rw [if_pos (show ([] : List (DomainId × Int)).length = 0 from rfl),
      if_neg (by omega)]
  · intro ctx c ti entry ni rr R sc1 sc2 hfind hreason hexpl hsc1 hsc2 hsign
    constructor
    · intro hcut
      simp only [resolve_step, hfind, hreason, hexpl, hsc1, hsc2]
      rw [if_neg hsign]
      simp only [hcut]
    · intro hcut
      simp only [resolve_step, hfind, hreason, hexpl, hsc1, hsc2]
      rw [if_neg hsign]
      simp only [hcut]
  · intro ctx fuel c ti r hstep
    simp only [resolve_loop, hstep]

/-- Counterexample to C2 as stated: on the Rust contradiction unit test of
apply_cut the resolver returns a nogood holding Predicate::trivially_true,
not a trivially-false predicate. -/
theorem C2_counterexample :
    resolve_conflict
      ⟨false, some ⟨[(0, -2), (1, 2), (2, -3), (3, -5), (4, -4)], 0⟩, 1, 2,
        fun _ => ⟨0, some 0⟩,
        fun _ => some ⟨[(0, 4), (1, -4), (2, 6), (3, 10), (4, 8)], -5⟩,
        ⟨fun _ _ => -1, fun _ _ => -1⟩,
        fun _ => 1⟩ 2
      = some (.result (.nogood [Predicate.triviallyTrue] 0)) ∧
    Predicate.triviallyTrue ≠ Predicate.triviallyFalse := by
  constructor
  · decide
  · decide

/-- Witness for C2 at the Rust contradiction unit test of apply_cut. -/
theorem C2_empty_cut_classification_witness :
    (((-5 : Int) < 0 →
      apply_cut 0 ⟨[(0, -2), (1, 2), (2, -3), (3, -5), (4, -4)], 0⟩
        ⟨[(0, 4), (1, -4), (2, 6), (3, 10), (4, 8)], -5⟩ =
        some .contradiction) ∧
     ((0 : Int) ≤ -5 →
      apply_cut 0 ⟨[(0, -2), (1, 2), (2, -3), (3, -5), (4, -4)], 0⟩
        ⟨[(0, 4), (1, -4), (2, 6), (3, 10), (4, 8)], -5⟩ =
        some .nothingLearned)) ∧
    (∀ (ctx : Context) (c : LinearLessOrEqual) (ti : Nat)
       (entry : TrailEntry) (ni rr : Nat) (R : LinearLessOrEqual)
       (sc1 sc2 : Int),
      find_trail_entry ctx c ti = some (.found entry ni) →
      entry.reason = some rr →
      ctx.reason_explanation rr = some R →
      find_variable_scale c entry.var = some sc1 →
      find_variable_scale R entry.var = some sc2 →
      ¬((0 < sc1) ↔ (0 < sc2)) →
      (apply_cut entry.var c R = some .contradiction →
        resolve_step ctx c ti =
          some (.done (.result (.nogood [Predicate.triviallyTrue] 0)))) ∧
      (apply_cut entry.var c R = some .nothingLearned →
        resolve_step ctx c ti = some (.done (.fallback "Nothing learned")))) ∧
    (∀ (ctx : Context) (fuel : Nat) (c : LinearLessOrEqual) (ti : Nat)
       (r : ResolveOutcome),
      resolve_step ctx c ti = some (.done r) →
      resolve_loop ctx (fuel + 1) c ti = some r) :=
  C2_empty_cut_classification 0
    ⟨[(0, -2), (1, 2), (2, -3), (3, -5), (4, -4)], 0⟩
    ⟨[(0, 4), (1, -4), (2, 6), (3, 10), (4, 8)], -5⟩
    (-2) 4
    [(0, -4), (1, 4), (2, -6), (3, -10), (4, -8)] false 0 (-5) (-5)
    (by decide) (by decide) (by decide) (by decide) (by decide) (by decide)
    (by decide)

/-- C10: div_ceil(num, div) equals the mathematical ceiling of the
rational num/div for every num and nonzero div of either sign, and the
truncated quotient is incremented by one exactly when the remainder is
nonzero and has the same sign as the divisor. -/
theorem C10_div_ceil_is_rational_ceiling (num div : Int) (h : div ≠ 0) :
    div_ceil num div = ⌈(num : ℚ) / (div : ℚ)⌉ ∧
    (div_ceil num div = num.tdiv div + 1 ↔
      num.tmod div ≠ 0 ∧ (0 < num.tmod div ↔ 0 < div)) := by
  constructor
  · exact div_ceil_eq_ceil num div h
  · unfold div_ceil
    split_ifs with hc <;> omega

/-- Witness for C10 at num = 7, div = 2. -/
theorem C10_div_ceil_is_rational_ceiling_witness :
    div_ceil 7 2 = ⌈(7 : ℚ) / (2 : ℚ)⌉ ∧
    (div_ceil 7 2 = (7 : Int).tdiv 2 + 1 ↔
      (7 : Int).tmod 2 ≠ 0 ∧ (0 < (7 : Int).tmod 2 ↔ 0 < (2 : Int))) :=
  C10_div_ceil_is_rational_ceiling 7 2 (by decide)

theorem alContains_iff_mem (m : List (DomainId × Int)) (k : DomainId) :
    alContains m k = true ↔ k ∈ m.map Prod.fst := by
  induction m with
  | nil =>
    simp [alContains, List.find?]
  | cons hd rest ih =>
    obtain ⟨k', v'⟩ := hd
    rw [alContains_eq_isSome, alLookup_cons]
    by_cases hk : k' = k
    · subst hk; simp
    · rw [if_neg hk, ← alContains_eq_isSome]
      simp only [List.map_cons, List.mem_cons]
      rw [ih]
      constructor
      · intro h; exact Or.inr h
      · rintro (h | h)
        · exact absurd h.symm hk
        · exact h

/-- C4: a successful apply_cut(v, C, R) returns skip_early_backjump = true
iff the only DomainId occurring in both lhs's is the eliminated variable v
(which does occur in both); when the returned flag is true the resolver
skips the early-backjump search and continues walking the trail with the
new conflicting constraint. -/
theorem C4_skip_early_backjump_iff_no_other_clash
    (var : DomainId) (c1 c2 : LinearLessOrEqual)
    (c1s c2s : Int) (ineq : LinearLessOrEqual) (skip : Bool)
    (hnd1 : (c1.lhs.map Prod.fst).Nodup)
    (hnd2 : (c2.lhs.map Prod.fst).Nodup)
    (hc1 : find_variable_scale c1 var = some c1s)
    (hc2 : find_variable_scale c2 var = some c2s)
    (h : apply_cut var c1 c2 = some (.success ineq skip)) :
    ((skip = true ↔
      ∀ w, w ∈ c1.lhs.map Prod.fst → w ∈ c2.lhs.map Prod.fst → w = var) ∧
     var ∈ c1.lhs.map Prod.fst ∧ var ∈ c2.lhs.map Prod.fst) ∧
    (∀ (ctx : Context) (c : LinearLessOrEqual) (ti : Nat)
       (entry : TrailEntry) (ni rr : Nat) (R : LinearLessOrEqual)
       (sc1 sc2 : Int) (nc : LinearLessOrEqual),
      find_trail_entry ctx c ti = some (.found entry ni) →
      entry.reason = some rr →
      ctx.reason_explanation rr = some R →
      find_variable_scale c entry.var = some sc1 →
      find_variable_scale R entry.var = some sc2 →
      ¬((0 < sc1) ↔ (0 < sc2)) →
      apply_cut entry.var c R = some (.success nc true) →
      overflows nc ctx.assignments ni = false →
      is_conflicting nc ctx.assignments ni = true →
      resolve_step ctx c ti = some (.next nc ni)) := by
  constructor
  · obtain ⟨m0, merged, r1, r2, nr, hscale, hadd, _, _, _, _, _⟩ :=
      apply_cut_success_inv var c1 c2 c1s c2s ineq skip hc1 hc2 h
    obtain ⟨hm0eq, _⟩ := scale_lhs_some _ _ _ hscale
    have hm0keys : m0.map Prod.fst = c1.lhs.map Prod.fst := by
      rw [hm0eq, List.map_map]
      rfl
    have hm0nd : (m0.map Prod.fst).Nodup := by rw [hm0keys]; exact hnd1
    obtain ⟨_, _, _, hskip⟩ :=
      add_lhs_some_spec (cut_mult_c2 c1s c2s) var c2.lhs m0 true merged skip
        hadd hnd2 hm0nd
    refine ⟨?_, ?_, ?_⟩
    · rw [hskip]
      constructor
      · rintro ⟨_, hall⟩ w hw1 hw2
        rw [List.mem_map] at hw2
        obtain ⟨p, hp, (rfl : p.1 = w)⟩ := hw2
        exact hall p hp (by rw [alContains_iff_mem, hm0keys]; exact hw1)
      · intro hall
        refine ⟨rfl, ?_⟩
        intro p hp hcont
        rw [alContains_iff_mem, hm0keys] at hcont
        exact hall p.1 hcont (List.mem_map_of_mem Prod.fst hp)
    · rw [find_variable_scale_eq_alLookup] at hc1
      exact List.mem_map_of_mem Prod.fst (alLookup_mem _ _ _ hc1)
    · rw [find_variable_scale_eq_alLookup] at hc2
      exact List.mem_map_of_mem Prod.fst (alLookup_mem _ _ _ hc2)
  · intro ctx c ti entry ni rr R sc1 sc2 nc hfind hreason hexpl hsc1 hsc2
      hsign hcut hov his
    simp only [resolve_step, hfind, hreason, hexpl, hsc1, hsc2]
    rw [if_neg hsign]
    simp only [hcut, hov, his]
    simp

/-- Witness for C4 at the Rust no-clash unit test of apply_cut. -/
theorem C4_skip_early_backjump_iff_no_other_clash_witness :
    ((true = true ↔
      ∀ w, w ∈ (([(0, -4), (1, 2), (2, 4), (3, -5)] :
            List (DomainId × Int)).map Prod.fst) →
        w ∈ (([(0, 4), (4, 8)] : List (DomainId × Int)).map Prod.fst) →
        w = 0) ∧
     (0 : DomainId) ∈ (([(0, -4), (1, 2), (2, 4), (3, -5)] :
        List (DomainId × Int)).map Prod.fst) ∧
     (0 : DomainId) ∈ (([(0, 4), (4, 8)] :
        List (DomainId × Int)).map Prod.fst)) ∧
    (∀ (ctx : Context) (c : LinearLessOrEqual) (ti : Nat)
       (entry : TrailEntry) (ni rr : Nat) (R : LinearLessOrEqual)
       (sc1 sc2 : Int) (nc : LinearLessOrEqual),
      find_trail_entry ctx c ti = some (.found entry ni) →
      entry.reason = some rr →
      ctx.reason_explanation rr = some R →
      find_variable_scale c entry.var = some sc1 →
      find_variable_scale R entry.var = some sc2 →
      ¬((0 < sc1) ↔ (0 < sc2)) →
      apply_cut entry.var c R = some (.success nc true) →
      overflows nc ctx.assignments ni = false →
      is_conflicting nc ctx.assignments ni = true →
      resolve_step ctx c ti = some (.next nc ni)) :=
  C4_skip_early_backjump_iff_no_other_clash 0
    ⟨[(0, -4), (1, 2), (2, 4), (3, -5)], 10⟩
    ⟨[(0, 4), (4, 8)], -5⟩ (-4) 4
    ⟨[(1, 2), (2, 4), (3, -5), (4, 8)], 5⟩ true
    (by decide) (by decide) (by decide) (by decide) (by decide)

/-- C6: apply_cut returns Overflow exactly when one of its checked i32
operations overflows: scaling a coefficient of either operand, scaling
either rhs, summing a pair of scaled coefficients, or summing the two
scaled rhs values; and on Overflow the resolver falls back to the
resolution resolver instead of emitting a learned constraint. -/
theorem C6_checked_overflow_aborts
    (var : DomainId) (c1 c2 : LinearLessOrEqual) (c1s c2s : Int)
    (hnd1 : (c1.lhs.map Prod.fst).Nodup)
    (hnd2 : (c2.lhs.map Prod.fst).Nodup)
    (hc1 : find_variable_scale c1 var = some c1s)
    (hc2 : find_variable_scale c2 var = some c2s) :
    (apply_cut var c1 c2 = some .overflow ↔
      ((∃ p ∈ c1.lhs, ¬inI32 (cut_mult_c1 c1s c2s * p.2)) ∨
       (∃ p ∈ c2.lhs, ¬inI32 (cut_mult_c2 c1s c2s * p.2) ∨
         ¬inI32 ((alLookup
             (c1.lhs.map (fun p => (p.1, cut_mult_c1 c1s c2s * p.2)))
             p.1).getD 0 + cut_mult_c2 c1s c2s * p.2)) ∨
       ¬inI32 (c1.rhs * cut_mult_c1 c1s c2s) ∨
       ¬inI32 (c2.rhs * cut_mult_c2 c1s c2s) ∨
       ¬inI32 (c1.rhs * cut_mult_c1 c1s c2s +
         c2.rhs * cut_mult_c2 c1s c2s))) ∧
    (∀ (ctx : Context) (c : LinearLessOrEqual) (ti : Nat)
       (entry : TrailEntry) (ni rr : Nat) (R : LinearLessOrEqual)
       (sc1 sc2 : Int),
      find_trail_entry ctx c ti = some (.found entry ni) →
      entry.reason = some rr →
      ctx.reason_explanation rr = some R →
      find_variable_scale c entry.var = some sc1 →
      find_variable_scale R entry.var = some sc2 →
      ¬((0 < sc1) ↔ (0 < sc2)) →
      apply_cut entry.var c R = some .overflow →
      resolve_step ctx c ti = some (.done (.fallback "Overflow"))) := by
  constructor
  · cases hscale : scale_lhs (cut_mult_c1 c1s c2s) c1.lhs with
    | none =>
      simp only [apply_cut, hc1, hc2, hscale]
      exact ⟨fun _ => Or.inl ((scale_lhs_none _ _).mp hscale), fun _ => trivial⟩
    | some m0 =>
      obtain ⟨hm0eq, _⟩ := scale_lhs_some _ _ _ hscale
      have hm0nd : (m0.map Prod.fst).Nodup := by
        rw [hm0eq, List.map_map]
        exact hnd1
      have hno1 : ¬∃ p ∈ c1.lhs, ¬inI32 (cut_mult_c1 c1s c2s * p.2) := by
        intro hex
        rw [← scale_lhs_none (cut_mult_c1 c1s c2s) c1.lhs] at hex
        rw [hex] at hscale
        exact Option.noConfusion hscale
      cases hadd : add_lhs (cut_mult_c2 c1s c2s) var m0 c2.lhs true with
      | none =>
        simp only [apply_cut, hc1, hc2, hscale, hadd]
        refine ⟨fun _ => Or.inr (Or.inl ?_), fun _ => trivial⟩
        have hx := (add_lhs_none_iff (cut_mult_c2 c1s c2s) var c2.lhs m0 true
          hnd2 hm0nd).mp hadd
        rw [hm0eq] at hx
        exact hx
      | some pr =>
        obtain ⟨merged, skip⟩ := pr
        have hno2 : ¬∃ p ∈ c2.lhs, ¬inI32 (cut_mult_c2 c1s c2s * p.2) ∨
            ¬inI32 ((alLookup
              (c1.lhs.map (fun p => (p.1, cut_mult_c1 c1s c2s * p.2)))
              p.1).getD 0 + cut_mult_c2 c1s c2s * p.2) := by
          intro hex
          rw [← hm0eq,
            ← add_lhs_none_iff (cut_mult_c2 c1s c2s) var c2.lhs m0 true
              hnd2 hm0nd] at hex
          rw [hex] at hadd
          exact Option.noConfusion hadd
        cases hr1 : checked_mul c1.rhs (cut_mult_c1 c1s c2s) with
        | none =>
          simp only [apply_cut, hc1, hc2, hscale, hadd, hr1]
          exact ⟨fun _ => Or.inr (Or.inr (Or.inl (checked_mul_none.mp hr1))),
            fun _ => trivial⟩
        | some r1 =>
          obtain ⟨hr1v, hr1in⟩ := checked_mul_some hr1
          cases hr2 : checked_mul c2.rhs (cut_mult_c2 c1s c2s) with
          | none =>
            simp only [apply_cut, hc1, hc2, hscale, hadd, hr1, hr2]
            exact ⟨fun _ =>
              Or.inr (Or.inr (Or.inr (Or.inl (checked_mul_none.mp hr2)))),
              fun _ => trivial⟩
          | some r2 =>
            obtain ⟨hr2v, hr2in⟩ := checked_mul_some hr2
            cases hca : checked_add r1 r2 with
            | none =>
              simp only [apply_cut, hc1, hc2, hscale, hadd, hr1, hr2, hca]
              refine ⟨fun _ =>
                Or.inr (Or.inr (Or.inr (Or.inr ?_))), fun _ => trivial⟩
              have hx := checked_add_none.mp hca
              rw [hr1v, hr2v] at hx
              exact hx
            | some nr =>
              simp only [apply_cut, hc1, hc2, hscale, hadd, hr1, hr2, hca]
              constructor
              · intro h
                exfalso
                split_ifs at h <;>
                  exact CutResult.noConfusion (Option.some.inj h)
              · intro h
                exfalso
                rcases h with h1 | h2 | h3 | h4 | h5
                · exact hno1 h1
                · exact hno2 h2
                · exact Option.noConfusion
                    (hr1.symm.trans (checked_mul_none.mpr h3))
                · exact Option.noConfusion
                    (hr2.symm.trans (checked_mul_none.mpr h4))
                · refine h5 ?_
                  rw [← hr1v, ← hr2v]
                  exact (checked_add_some hca).2
  · intro ctx c ti entry ni rr R sc1 sc2 hfind hreason hexpl hsc1 hsc2
      hsign hcut
    simp only [resolve_step, hfind, hreason, hexpl, hsc1, hsc2]
    rw [if_neg hsign]
    simp only [hcut]

/-- Witness for C6 at a cut whose pairwise coefficient sum overflows i32. -/
theorem C6_checked_overflow_aborts_witness :
    (apply_cut 0 ⟨[(0, -1), (1, 2000000000)], 0⟩
        ⟨[(0, 1), (1, 2000000000)], 0⟩ = some .overflow ↔
      ((∃ p ∈ ([(0, -1), (1, 2000000000)] : List (DomainId × Int)),
          ¬inI32 (cut_mult_c1 (-1) 1 * p.2)) ∨
       (∃ p ∈ ([(0, 1), (1, 2000000000)] : List (DomainId × Int)),
          ¬inI32 (cut_mult_c2 (-1) 1 * p.2) ∨
          ¬inI32 ((alLookup
              (([(0, -1), (1, 2000000000)] : List (DomainId × Int)).map
                (fun p => (p.1, cut_mult_c1 (-1) 1 * p.2)))
              p.1).getD 0 + cut_mult_c2 (-1) 1 * p.2)) ∨
       ¬inI32 ((0 : Int) * cut_mult_c1 (-1) 1) ∨
       ¬inI32 ((0 : Int) * cut_mult_c2 (-1) 1) ∨
       ¬inI32 ((0 : Int) * cut_mult_c1 (-1) 1 +
         (0 : Int) * cut_mult_c2 (-1) 1))) ∧
    (∀ (ctx : Context) (c : LinearLessOrEqual) (ti : Nat)
       (entry : TrailEntry) (ni rr : Nat) (R : LinearLessOrEqual)
       (sc1 sc2 : Int),
      find_trail_entry ctx c ti = some (.found entry ni) →
      entry.reason = some rr →
      ctx.reason_explanation rr = some R →
      find_variable_scale c entry.var = some sc1 →
      find_variable_scale R entry.var = some sc2 →
      ¬((0 < sc1) ↔ (0 < sc2)) →
      apply_cut entry.var c R = some .overflow →
      resolve_step ctx c ti = some (.done (.fallback "Overflow"))) :=
  C6_checked_overflow_aborts 0 ⟨[(0, -1), (1, 2000000000)], 0⟩
    ⟨[(0, 1), (1, 2000000000)], 0⟩ (-1) 1
    (by decide) (by decide) (by decide) (by decide)

theorem sum_map_eraseIdx (f : DomainId × Int → Int) :
    ∀ (l : List (DomainId × Int)) (j : Nat) (h : j < l.length),
    ((l.eraseIdx j).map f).sum = (l.map f).sum - f (l.get ⟨j, h⟩) := by
  intro l
  induction l with
  | nil =>
    intro j h
    exact absurd h (Nat.not_lt_zero j)
  | cons a rest ih =>
    intro j h
    cases j with
    | zero =>
      simp [List.eraseIdx_cons_zero]
    | succ j' =>
      simp only [List.eraseIdx_cons_succ, List.map_cons, List.sum_cons,
        List.get_cons_succ]
      rw [ih j' (by simpa using h)]
      ring

theorem is_propagating_iff (c : LinearLessOrEqual) (asg : Assignments)
    (pos : Nat) :
    is_propagating c asg pos = true ↔
      ∃ j, ∃ h : j < c.lhs.length,
        scaled_ub asg pos (c.lhs.get ⟨j, h⟩).1 (c.lhs.get ⟨j, h⟩).2 >
          c.rhs - ((c.lhs.eraseIdx j).map
            (fun p => scaled_lb asg pos p.1 p.2)).sum := by
  unfold is_propagating
  rw [List.any_eq_true]
  constructor
  · rintro ⟨p, hp, hP⟩
    rw [List.mem_iff_get] at hp
    obtain ⟨n, hpj⟩ := hp
    refine ⟨n.1, n.2, ?_⟩
    rw [sum_map_eraseIdx _ _ n.1 n.2]
    have hn : c.lhs.get ⟨n.1, n.2⟩ = p := by
      rw [← hpj]
    rw [hn]
    simp only [decide_eq_true_eq, gt_iff_lt] at hP ⊢
    unfold lb_lhs at hP
    omega
  · rintro ⟨j, hj, hP⟩
    refine ⟨c.lhs.get ⟨j, hj⟩, List.get_mem c.lhs j hj, ?_⟩
    rw [sum_map_eraseIdx _ _ j hj] at hP
    simp only [decide_eq_true_eq, gt_iff_lt] at hP ⊢
    unfold lb_lhs
    omega

theorem early_backjump_loop_learned (ctx : Context) (c : LinearLessOrEqual) :
    ∀ (remaining start : Nat) (cc : LinearLessOrEqual) (L : Nat),
    early_backjump_loop ctx c start remaining = some (.learned cc L) →
    cc = c ∧ start ≤ L ∧ L < start + remaining ∧
    (∃ btl, ctx.trail_pos_for_level L = btl + 1 ∧
      overflows c ctx.assignments btl = false ∧
      (is_propagating c ctx.assignments btl = true ∨
       is_conflicting c ctx.assignments btl = true)) ∧
    (∀ L', start ≤ L' → L' < L →
      ∃ btl, ctx.trail_pos_for_level L' = btl + 1 ∧
        overflows c ctx.assignments btl = false ∧
        is_propagating c ctx.assignments btl = false ∧
        is_conflicting c ctx.assignments btl = false) := by
  intro remaining
  induction remaining with
  | zero =>
    intro start cc L h
    simp only [early_backjump_loop, Option.some.injEq] at h
    exact BackjumpResult.noConfusion h
  | succ rem ih =>
    intro start cc L h
    cases hts : ctx.trail_pos_for_level start with
    | zero =>
      simp only [early_backjump_loop, hts] at h
      exact Option.noConfusion h
    | succ btl =>
      simp only [early_backjump_loop, hts] at h
      by_cases hov : overflows c ctx.assignments btl = true
      · rw [if_pos hov] at h
        injection h with h
        exact BackjumpResult.noConfusion h
      · rw [if_neg hov] at h
        have hov' : overflows c ctx.assignments btl = false :=
          Bool.not_eq_true _ ▸ hov
        by_cases hpc : (is_propagating c ctx.assignments btl ||
            is_conflicting c ctx.assignments btl) = true
        · rw [if_pos hpc] at h
          injection h with h
          injection h with h1 h2
          subst h1
          subst h2
          rw [Bool.or_eq_true] at hpc
          refine ⟨rfl, Nat.le_refl _, by omega, ⟨btl, hts, hov', hpc⟩, ?_⟩
          intro L' h1 h2
          omega
        · rw [if_neg hpc] at h
          obtain ⟨hcc, hle, hlt, hfound, hprev⟩ := ih (start + 1) cc L h
          simp only [Bool.or_eq_true, not_or, Bool.not_eq_true] at hpc
          refine ⟨hcc, by omega, by omega, hfound, ?_⟩
          intro L' h1 h2
          by_cases hL' : L' = start
          · subst hL'
            exact ⟨btl, hts, hov', hpc.1, hpc.2⟩
          · exact hprev L' (by omega) h2

theorem resolve_loop_done_inv (ctx : Context) :
    ∀ (fuel : Nat) (c : LinearLessOrEqual) (ti : Nat) (r : ResolveOutcome),
    resolve_loop ctx fuel c ti = some r →
    ∃ c' ti', resolve_step ctx c' ti' = some (.done r) := by
  intro fuel
  induction fuel with
  | zero =>
    intro c ti r h
    simp only [resolve_loop] at h
    exact Option.noConfusion h
  | succ f ih =>
    intro c ti r h
    cases hs : resolve_step ctx c ti with
    | none =>
      simp only [resolve_loop, hs] at h
      exact Option.noConfusion h
    | some sr =>
      cases sr with
      | done r' =>
        simp only [resolve_loop, hs, Option.some.injEq] at h
        subst h
        exact ⟨c, ti, hs⟩
      | next c' ti' =>
        simp only [resolve_loop, hs] at h
        exact ih c' ti' r h

theorem resolve_step_constraint_inv (ctx : Context) (c : LinearLessOrEqual)
    (ti : Nat) (cc : LinearLessOrEqual) (L : Nat)
    (h : resolve_step ctx c ti =
      some (.done (.result (.constraint cc L)))) :
    ∃ nc, find_early_backjump ctx nc = some (.learned cc L) := by
  cases hf : find_trail_entry ctx c ti with
  | none => simp [resolve_step, hf] at h
  | some sr =>
    cases sr with
    | fallbackDecision => simp [resolve_step, hf] at h
    | found entry ni =>
      cases hr : entry.reason with
      | none => simp [resolve_step, hf, hr] at h
      | some rr =>
        cases he : ctx.reason_explanation rr with
        | none => simp [resolve_step, hf, hr, he] at h
        | some R =>
          cases hs1 : find_variable_scale c entry.var with
          | none => simp [resolve_step, hf, hr, he, hs1] at h
          | some sc1 =>
            cases hs2 : find_variable_scale R entry.var with
            | none => simp [resolve_step, hf, hr, he, hs1, hs2] at h
            | some sc2 =>
              simp only [resolve_step, hf, hr, he, hs1, hs2] at h
              by_cases hsgn : (0 < sc1) ↔ (0 < sc2)
              · rw [if_pos hsgn] at h
                simp at h
              · rw [if_neg hsgn] at h
                cases hcut : apply_cut entry.var c R with
                | none => simp [hcut] at h
                | some cr =>
                  cases cr with
                  | nothingLearned => simp [hcut] at h
                  | overflow => simp [hcut] at h
                  | contradiction => simp [hcut] at h
                  | success nc skip =>
                    simp only [hcut] at h
                    by_cases hov :
                        overflows nc ctx.assignments ni = true
                    · rw [if_pos hov] at h
                      simp at h
                    · rw [if_neg hov] at h
                      by_cases hcf :
                          is_conflicting nc ctx.assignments ni = false
                      · rw [if_pos hcf] at h
                        simp at h
                      · rw [if_neg hcf] at h
                        cases skip with
                        | true => simp at h
                        | false =>
                          simp only [Bool.false_eq_true, if_false] at h
                          cases hfe : find_early_backjump ctx nc with
                          | none => simp [hfe] at h
                          | some br =>
                            cases br with
                            | fallbackOverflow => simp [hfe] at h
                            | nothingFound => simp [hfe] at h
                            | learned ccx Lx =>
                              simp only [hfe, Option.some.injEq,
                                StepResult.done.injEq] at h
                              obtain ⟨h1, h2⟩ :
                                  ccx = cc ∧ Lx = L := by
                                cases h
                                exact ⟨rfl, rfl⟩
                              subst h1
                              subst h2
                              exact ⟨nc, hfe⟩

/-- C5: the early-backjump search walks candidate levels 0..D in
increasing order and emits the learned constraint at the first level where
it is propagating or conflicting (without i32 overflow) at the trail
position of that level; is_propagating holds iff some term's scaled upper
bound exceeds rhs minus the sum of the scaled lower bounds of the other
terms; consequently a LearnedConstraint{cc, L} outcome of resolve_conflict
has cc propagating or conflicting at the trail position of level L. -/
theorem C5_early_backjump_first_propagating_level (ctx : Context) :
    (∀ (c : LinearLessOrEqual) (asg : Assignments) (pos : Nat),
      is_propagating c asg pos = true ↔
        ∃ j, ∃ h : j < c.lhs.length,
          scaled_ub asg pos (c.lhs.get ⟨j, h⟩).1 (c.lhs.get ⟨j, h⟩).2 >
            c.rhs - ((c.lhs.eraseIdx j).map
              (fun p => scaled_lb asg pos p.1 p.2)).sum) ∧
    (∀ (c cc : LinearLessOrEqual) (L : Nat),
      find_early_backjump ctx c = some (.learned cc L) →
      cc = c ∧ L < ctx.decision_level ∧
      (∃ btl, ctx.trail_pos_for_level L = btl + 1 ∧
        overflows c ctx.assignments btl = false ∧
        (is_propagating c ctx.assignments btl = true ∨
         is_conflicting c ctx.assignments btl = true)) ∧
      (∀ L', L' < L →
        ∃ btl, ctx.trail_pos_for_level L' = btl + 1 ∧
          overflows c ctx.assignments btl = false ∧
          is_propagating c ctx.assignments btl = false ∧
          is_conflicting c ctx.assignments btl = false)) ∧
    (∀ (fuel : Nat) (cc : LinearLessOrEqual) (L : Nat),
      resolve_conflict ctx fuel = some (.result (.constraint cc L)) →
      L < ctx.decision_level ∧
      ∃ btl, ctx.trail_pos_for_level L = btl + 1 ∧
        overflows cc ctx.assignments btl = false ∧
        (is_propagating cc ctx.assignments btl = true ∨
         is_conflicting cc ctx.assignments btl = true)) := by
  have hbj : ∀ (c cc : LinearLessOrEqual) (L : Nat),
      find_early_backjump ctx c = some (.learned cc L) →
      cc = c ∧ L < ctx.decision_level ∧
      (∃ btl, ctx.trail_pos_for_level L = btl + 1 ∧
        overflows c ctx.assignments btl = false ∧
        (is_propagating c ctx.assignments btl = true ∨
         is_conflicting c ctx.assignments btl = true)) ∧
      (∀ L', L' < L →
        ∃ btl, ctx.trail_pos_for_level L' = btl + 1 ∧
          overflows c ctx.assignments btl = false ∧
          is_propagating c ctx.assignments btl = false ∧
          is_conflicting c ctx.assignments btl = false) := by
    intro c cc L h
    obtain ⟨hcc, _, hlt, hfound, hprev⟩ :=
      early_backjump_loop_learned ctx c ctx.decision_level 0 cc L h
    exact ⟨hcc, by omega, hfound, fun L' h2 => hprev L' (Nat.zero_le L') h2⟩
  refine ⟨is_propagating_iff, hbj, ?_⟩
  intro fuel cc L h
  unfold resolve_conflict at h
  by_cases hcp : ctx.is_completing_proof
  · rw [if_pos hcp] at h
    simp at h
  · rw [if_neg hcp] at h
    cases hic : ctx.initial_constraint with
    | none =>
      simp only [hic] at h
      simp at h
    | some c0 =>
      simp only [hic] at h
      cases hnt : ctx.num_trail_entries with
      | zero =>
        simp only [hnt] at h
        exact Option.noConfusion h
      | succ n =>
        simp only [hnt] at h
        obtain ⟨c', ti', hstep⟩ := resolve_loop_done_inv ctx fuel c0 n _ h
        obtain ⟨nc, hfe⟩ := resolve_step_constraint_inv ctx c' ti' cc L hstep
        obtain ⟨hcc, hlt, hfound, _⟩ := hbj nc cc L hfe
        subst hcc
        exact ⟨hlt, hfound⟩

/-- C7: for an affine view y = a*x + b with a nonzero, lb(y) is
a*lb(x)+b when a > 0 and a*ub(x)+b when a < 0 (mirrored for ub), and
set_upper_bound(y, v) applies floor((v-b)/a) to the inner variable, as an
upper bound when a > 0 and as a lower bound when a < 0; for x in [0, 5]
and y = 2x, setting y's upper bound to 7 tightens x's upper bound to 3. -/
theorem C7_affine_view_bounds (av : AffineView) (asg : AssignmentsInteger)
    (ha : av.scale ≠ 0) :
    (av.lower_bound asg =
      if 0 < av.scale then
        av.scale * get_lower_bound asg av.inner + av.offset
      else av.scale * get_upper_bound asg av.inner + av.offset) ∧
    (av.upper_bound asg =
      if 0 < av.scale then
        av.scale * get_upper_bound asg av.inner + av.offset
      else av.scale * get_lower_bound asg av.inner + av.offset) ∧
    (∀ v, av.set_upper_bound asg v =
      if 0 < av.scale then
        tighten_ub asg av.inner
          ⌊((v - av.offset : Int) : ℚ) / ((av.scale : Int) : ℚ)⌋
      else
        tighten_lb asg av.inner
          ⌊((v - av.offset : Int) : ℚ) / ((av.scale : Int) : ℚ)⌋) ∧
    ((AffineView.mk 0 2 0).set_upper_bound ⟨fun _ => 0, fun _ => 5⟩ 7).map
        (fun a => (get_lower_bound a 0, get_upper_bound a 0)) =
      some (0, 3) := by
  have hfl : ∀ v : Int, av.invert v .down =
      ⌊((v - av.offset : Int) : ℚ) / ((av.scale : Int) : ℚ)⌋ := by
    intro v
    unfold AffineView.invert
    exact div_floor_eq_floor (v - av.offset) av.scale ha
  rcases ha.lt_or_lt with hneg | hpos
  · refine ⟨?_, ?_, ?_, ?_⟩
    · unfold AffineView.lower_bound AffineView.affineMap
      rw [if_pos hneg, if_neg (by omega)]
    · unfold AffineView.upper_bound AffineView.affineMap
      rw [if_pos hneg, if_neg (by omega)]
    · intro v
      unfold AffineView.set_upper_bound
      rw [if_neg (by omega), if_neg (by omega), hfl]
    · decide
  · refine ⟨?_, ?_, ?_, ?_⟩
    · unfold AffineView.lower_bound AffineView.affineMap
      rw [if_neg (by omega), if_pos hpos]
    · unfold AffineView.upper_bound AffineView.affineMap
      rw [if_neg (by omega), if_pos hpos]
    · intro v
      unfold AffineView.set_upper_bound
      rw [if_pos (by omega), if_pos hpos, hfl]
    · decide

/-- Witness for C7 at y = 2x over x in [0, 5]. -/
theorem C7_affine_view_bounds_witness :
    ((AffineView.mk 0 2 0).lower_bound ⟨fun _ => 0, fun _ => 5⟩ =
      if 0 < (2 : Int) then
        2 * get_lower_bound ⟨fun _ => 0, fun _ => 5⟩ 0 + 0
      else 2 * get_upper_bound ⟨fun _ => 0, fun _ => 5⟩ 0 + 0) ∧
    ((AffineView.mk 0 2 0).upper_bound ⟨fun _ => 0, fun _ => 5⟩ =
      if 0 < (2 : Int) then
        2 * get_upper_bound ⟨fun _ => 0, fun _ => 5⟩ 0 + 0
      else 2 * get_lower_bound ⟨fun _ => 0, fun _ => 5⟩ 0 + 0) ∧
    (∀ v, (AffineView.mk 0 2 0).set_upper_bound ⟨fun _ => 0, fun _ => 5⟩ v =
      if 0 < (2 : Int) then
        tighten_ub ⟨fun _ => 0, fun _ => 5⟩ 0 ⌊((v - 0 : Int) : ℚ) / ((2 : Int) : ℚ)⌋
      else
        tighten_lb ⟨fun _ => 0, fun _ => 5⟩ 0 ⌊((v - 0 : Int) : ℚ) / ((2 : Int) : ℚ)⌋) ∧
    ((AffineView.mk 0 2 0).set_upper_bound ⟨fun _ => 0, fun _ => 5⟩ 7).map
        (fun a => (get_lower_bound a 0, get_upper_bound a 0)) =
      some (0, 3) :=
  C7_affine_view_bounds (AffineView.mk 0 2 0) ⟨fun _ => 0, fun _ => 5⟩
    (by decide)

/-- C8 (amended): a successful tighten_lower_bound (tighten_upper_bound)
notifies exactly the LowerBound (UpperBound) watchers and never the Assign
watchers, even when the tighten assigns the variable; only make_assignment
fires the Assign watchers. -/
theorem C8_tighten_never_fires_assign (asg : AssignmentsInteger)
    (x : DomainId) (v : Int) :
    (∀ a, (tighten_lower_bound asg x v).1 = some a →
      (tighten_lower_bound asg x v).2 = [DomainEvent.lowerBound]) ∧
    (∀ a, (tighten_upper_bound asg x v).1 = some a →
      (tighten_upper_bound asg x v).2 = [DomainEvent.upperBound]) ∧
    DomainEvent.assign ∉ (tighten_lower_bound asg x v).2 ∧
    DomainEvent.assign ∉ (tighten_upper_bound asg x v).2 ∧
    (∀ a, (make_assignment asg x v).1 = some a →
      DomainEvent.assign ∈ (make_assignment asg x v).2) := by
  refine ⟨?_, ?_, ?_, ?_, ?_⟩
  · intro a ha
    cases h : tighten_lb asg x v <;> simp [tighten_lower_bound, h] at ha ⊢
  · intro a ha
    cases h : tighten_ub asg x v <;> simp [tighten_upper_bound, h] at ha ⊢
  · cases h : tighten_lb asg x v <;> simp [tighten_lower_bound, h]
  · cases h : tighten_ub asg x v <;> simp [tighten_upper_bound, h]
  · intro a ha
    cases h : make_assignment_no_notify asg x v with
    | none => simp [make_assignment, h] at ha
    | some a' =>
      simp [make_assignment, h]

/-- Counterexample to C8 as stated: tightening the lower bound of x in
[0, 5] to 5 assigns x yet notifies only the LowerBound watchers, never
Assign. -/
theorem C8_counterexample :
    ((tighten_lower_bound ⟨fun _ => 0, fun _ => 5⟩ 0 5).1.map
        (fun a => (get_lower_bound a 0, get_upper_bound a 0)) =
      some (5, 5)) ∧
    (tighten_lower_bound ⟨fun _ => 0, fun _ => 5⟩ 0 5).2 =
      [DomainEvent.lowerBound] ∧
    DomainEvent.assign ∉ (tighten_lower_bound ⟨fun _ => 0, fun _ => 5⟩ 0 5).2
    := by
  exact ⟨rfl, rfl, by decide⟩

theorem getD_set_self {α : Type} (d : α) :
    ∀ (l : List α) (i : Nat) (a : α),
    i < l.length → (l.set i a).getD i d = a := by
  intro l
  induction l with
  | nil =>
    intro i a h
    exact absurd h (Nat.not_lt_zero i)
  | cons x rest ih =>
    intro i a h
    cases i with
    | zero => rfl
    | succ i' => exact ih i' a (by simpa using h)

theorem getD_set_ne {α : Type} (d : α) :
    ∀ (l : List α) (i j : Nat) (a : α),
    i ≠ j → (l.set i a).getD j d = l.getD j d := by
  intro l
  induction l with
  | nil =>
    intro i j a _
    rfl
  | cons x rest ih =>
    intro i j a hij
    cases i with
    | zero =>
      cases j with
      | zero => exact absurd rfl hij
      | succ j' => rfl
    | succ i' =>
      cases j with
      | zero => rfl
      | succ j' => exact ih i' j' a (by omega)

theorem getD_default {α : Type} (d : α) :
    ∀ (l : List α) (i : Nat), l.length ≤ i → l.getD i d = d := by
  intro l
  induction l with
  | nil =>
    intro i _
    rfl
  | cons x rest ih =>
    intro i h
    cases i with
    | zero => exact absurd h (by simp)
    | succ i' => exact ih i' (by simpa using h)

theorem heapMin_none : ∀ h : List Nat, heapMin h = none ↔ h = [] := by
  intro h
  cases h with
  | nil => simp [heapMin]
  | cons x rest =>
    simp only [heapMin]
    cases heapMin rest <;> simp

theorem heapMin_spec : ∀ (h : List Nat) (m : Nat), heapMin h = some m →
    m ∈ h ∧ ∀ p ∈ h, m ≤ p := by
  intro h
  induction h with
  | nil =>
    intro m hm
    exact Option.noConfusion hm
  | cons x rest ih =>
    intro m hm
    simp only [heapMin] at hm
    cases hr : heapMin rest with
    | none =>
      rw [hr] at hm
      injection hm with hm
      subst hm
      rw [(heapMin_none rest).mp hr]
      simp
    | some mr =>
      rw [hr] at hm
      injection hm with hm
      subst hm
      obtain ⟨hmem, hle⟩ := ih mr hr
      constructor
      · rcases Nat.le_total x mr with hx | hx
        · simp [Nat.min_eq_left hx]
        · rw [Nat.min_eq_right hx]
          exact List.mem_cons_of_mem x hmem
      · intro p hp
        rcases List.mem_cons.mp hp with hpx | hp
        · subst hpx
          exact Nat.min_le_left _ _
        · exact Nat.le_trans (Nat.min_le_right x mr) (hle p hp)

theorem enqueued_iff_mem (pq : PropagatorQueue) (id : PropagatorId) :
    is_propagator_enqueued pq id = true ↔ id ∈ pq.present_propagators := by
  unfold is_propagator_enqueued
  constructor
  · intro h
    exact List.mem_of_elem_eq_true h
  · intro h
    exact List.elem_eq_true_of_mem h

theorem isEmpty_iff_nil {α : Type} (l : List α) : l.isEmpty = true ↔ l = [] := by
  cases l <;> simp

theorem enqueue_fresh_spec (pq : PropagatorQueue) (id : PropagatorId)
    (prio : Nat) (hI : QWF pq) (hprlt : prio < pq.queues.length)
    (hfresh : is_propagator_enqueued pq id = false) :
    (enqueue_propagator pq id prio).queues.getD prio [] =
      pq.queues.getD prio [] ++ [id] ∧
    QWF (enqueue_propagator pq id prio) := by
  obtain ⟨hnd, hdisj, hps, hsp, hpm, hmp, hndp, hndr⟩ := hI
  have hnotmem : id ∉ pq.present_propagators := by
    intro hmem
    rw [← enqueued_iff_mem, hfresh] at hmem
    exact Bool.noConfusion hmem
  have hnotin : ∀ p, id ∉ pq.queues.getD p [] := by
    intro p hidp
    by_cases hp : p < pq.queues.length
    · exact hnotmem (hsp p hp id hidp)
    · rw [getD_default _ _ p (by omega)] at hidp
      exact List.not_mem_nil id hidp
  have hcond : ¬ is_propagator_enqueued pq id = true := by
    rw [hfresh]
    exact Bool.false_ne_true
  have hres : enqueue_propagator pq id prio =
      { queues := pq.queues.set prio (pq.queues.getD prio [] ++ [id]),
        present_propagators := id :: pq.present_propagators,
        present_priorities :=
          if (pq.queues.getD prio []).isEmpty then
            prio :: pq.present_priorities
          else pq.present_priorities } := by
    rw [enqueue_propagator, if_neg hcond]
  have hlen : (pq.queues.set prio
      (pq.queues.getD prio [] ++ [id])).length = pq.queues.length :=
    List.length_set pq.queues prio _
  have hQ : ∀ p, (pq.queues.set prio
      (pq.queues.getD prio [] ++ [id])).getD p [] =
      if p = prio then pq.queues.getD prio [] ++ [id]
      else pq.queues.getD p [] := by
    intro p
    by_cases hp : p = prio
    · subst hp
      rw [if_pos rfl]
      exact getD_set_self [] pq.queues p _ hprlt
    · rw [if_neg hp]
      exact getD_set_ne [] pq.queues prio p _ (fun h => hp h.symm)
  have hpri : ∀ p, p ∈ (if (pq.queues.getD prio []).isEmpty then
      prio :: pq.present_priorities else pq.present_priorities) ↔
      ((p = prio ∧ pq.queues.getD prio [] = []) ∨
        p ∈ pq.present_priorities) := by
    intro p
    by_cases hqp : pq.queues.getD prio [] = []
    · rw [if_pos ((isEmpty_iff_nil _).mpr hqp), List.mem_cons]
      constructor
      · rintro (rfl | hm)
        · exact Or.inl ⟨rfl, hqp⟩
        · exact Or.inr hm
      · rintro (⟨rfl, _⟩ | hm)
        · exact Or.inl rfl
        · exact Or.inr hm
    · rw [if_neg (fun h => hqp ((isEmpty_iff_nil _).mp h))]
      constructor
      · intro hm
        exact Or.inr hm
      · rintro (⟨rfl, hc⟩ | hm)
        · exact absurd hc hqp
        · exact hm
  rw [hres]
  unfold QWF
  dsimp only
  constructor
  · rw [hQ prio, if_pos rfl]
  · refine ⟨?_, ?_, ?_, ?_, ?_, ?_, ?_, ?_⟩
    · intro p hp
      rw [hQ p]
      by_cases hpp : p = prio
      · rw [if_pos hpp]
        refine List.Nodup.append (hnd prio hprlt) (List.nodup_singleton id) ?_
        intro a ha hae
        rw [List.mem_singleton] at hae
        subst hae
        exact hnotin prio ha
      · rw [if_neg hpp]
        rw [hlen] at hp
        exact hnd p hp
    · intro p hp q hq hpq idx hidx hidq
      rw [hlen] at hp hq
      rw [hQ p] at hidx
      rw [hQ q] at hidq
      by_cases hpp : p = prio
      · rw [if_pos hpp] at hidx
        rw [if_neg (by omega)] at hidq
        rcases List.mem_append.mp hidx with hx | hx
        · subst hpp
          exact hdisj p hp q hq hpq idx hx hidq
        · rw [List.mem_singleton] at hx
          subst hx
          exact hnotin q hidq
      · rw [if_neg hpp] at hidx
        by_cases hqq : q = prio
        · rw [if_pos hqq] at hidq
          rcases List.mem_append.mp hidq with hx | hx
          · subst hqq
            exact hdisj p hp q hq hpq idx hidx hx
          · rw [List.mem_singleton] at hx
            subst hx
            exact hnotin p hidx
        · rw [if_neg hqq] at hidq
          exact hdisj p hp q hq hpq idx hidx hidq
    · intro idx hidx
      rcases List.mem_cons.mp hidx with rfl | hm
      · refine ⟨prio, by omega, ?_⟩
        rw [hQ prio, if_pos rfl, List.mem_append, List.mem_singleton]
        exact Or.inr rfl
      · obtain ⟨p, hp, hmem⟩ := hps idx hm
        refine ⟨p, by omega, ?_⟩
        rw [hQ p]
        by_cases hpp : p = prio
        · rw [if_pos hpp, List.mem_append]
          subst hpp
          exact Or.inl hmem
        · rw [if_neg hpp]
          exact hmem
    · intro p hp idx hidx
      rw [hlen] at hp
      rw [hQ p] at hidx
      by_cases hpp : p = prio
      · rw [if_pos hpp] at hidx
        rcases List.mem_append.mp hidx with hx | hx
        · exact List.mem_cons_of_mem id (hsp prio hprlt idx hx)
        · rw [List.mem_singleton] at hx
          subst hx
          exact List.mem_cons_self idx _
      · rw [if_neg hpp] at hidx
        exact List.mem_cons_of_mem id (hsp p hp idx hidx)
    · intro p hp
      rw [hpri p] at hp
      rcases hp with ⟨rfl, _⟩ | hm
      · constructor
        · omega
        · rw [hQ p, if_pos rfl]
          simp
      · obtain ⟨hlt, hne⟩ := hpm p hm
        constructor
        · omega
        · rw [hQ p]
          by_cases hpp : p = prio
          · rw [if_pos hpp]
            simp
          · rw [if_neg hpp]
            exact hne
    · intro p hp hne
      rw [hpri p]
      rw [hlen] at hp
      rw [hQ p] at hne
      by_cases hpp : p = prio
      · subst hpp
        by_cases hqp : pq.queues.getD p [] = []
        · exact Or.inl ⟨rfl, hqp⟩
        · exact Or.inr (hmp p hp hqp)
      · rw [if_neg hpp] at hne
        exact Or.inr (hmp p hp hne)
    · rw [List.nodup_cons]
      exact ⟨hnotmem, hndp⟩
    · by_cases hqp : pq.queues.getD prio [] = []
      · rw [if_pos ((isEmpty_iff_nil _).mpr hqp), List.nodup_cons]
        refine ⟨?_, hndr⟩
        intro hm
        exact absurd hqp (hpm prio hm).2
      · rw [if_neg (fun h => hqp ((isEmpty_iff_nil _).mp h))]
        exact hndr

theorem pop_spec (pq : PropagatorQueue) (hI : QWF pq)
    (id : PropagatorId) (pq' : PropagatorQueue)
    (hpop : queuePop pq = some (id, pq')) :
    ∃ top rest,
      heapMin pq.present_priorities = some top ∧
      pq.queues.getD top [] = id :: rest ∧
      (∀ p, p < top → pq.queues.getD p [] = []) ∧
      pq'.queues.getD top [] = rest ∧
      QWF pq' := by
  obtain ⟨hnd, hdisj, hps, hsp, hpm, hmp, hndp, hndr⟩ := hI
  cases hm : heapMin pq.present_priorities with
  | none => simp [queuePop, hm] at hpop
  | some top =>
    have hcomp : queuePop pq =
        (match pq.queues.getD top [] with
         | [] => none
         | id :: rest =>
           some (id,
             { queues := pq.queues.set top rest,
               present_propagators := pq.present_propagators.erase id,
               present_priorities :=
                 if rest.isEmpty then heapPopMin pq.present_priorities
                 else pq.present_priorities })) := by
      unfold queuePop
      rw [hm]
    cases hq : pq.queues.getD top [] with
    | nil =>
      rw [hcomp, hq] at hpop
      exact Option.noConfusion hpop
    | cons id0 rest =>
      rw [hcomp, hq] at hpop
      injection hpop with hpop
      injection hpop with h1 h2
      have h1s := h1.symm
      subst h1s
      subst h2
      obtain ⟨htopmem, htople⟩ := heapMin_spec _ _ hm
      obtain ⟨htoplt, _⟩ := hpm top htopmem
      have hndtop := hnd top htoplt
      rw [hq, List.nodup_cons] at hndtop
      obtain ⟨hidrest, hrestnd⟩ := hndtop
      have hempty : ∀ p, p < top → pq.queues.getD p [] = [] := by
        intro p hp
        by_contra hne
        have hplen : p < pq.queues.length := by
          by_contra hge
          rw [getD_default [] pq.queues p (by omega)] at hne
          exact hne rfl
        have hmem := hmp p hplen hne
        have := htople p hmem
        omega
      have hlen : (pq.queues.set top rest).length = pq.queues.length :=
        List.length_set pq.queues top rest
      have hQ : ∀ p, (pq.queues.set top rest).getD p [] =
          if p = top then rest else pq.queues.getD p [] := by
        intro p
        by_cases hp : p = top
        · subst hp
          rw [if_pos rfl]
          exact getD_set_self [] pq.queues p rest htoplt
        · rw [if_neg hp]
          exact getD_set_ne [] pq.queues top p rest (fun h => hp h.symm)
      have hP : ∀ p, p ∈ (if rest.isEmpty then
          heapPopMin pq.present_priorities else pq.present_priorities) ↔
          (p ∈ pq.present_priorities ∧ (rest = [] → p ≠ top)) := by
        intro p
        by_cases hre : rest = []
        · rw [if_pos ((isEmpty_iff_nil _).mpr hre)]
          unfold heapPopMin
          rw [hm]
          rw [List.Nodup.mem_erase_iff hndr]
          constructor
          · rintro ⟨hne, hmem⟩
            exact ⟨hmem, fun _ => hne⟩
          · rintro ⟨hmem, hne⟩
            exact ⟨hne hre, hmem⟩
        · rw [if_neg (fun h => hre ((isEmpty_iff_nil _).mp h))]
          constructor
          · intro hmem
            exact ⟨hmem, fun h => absurd h hre⟩
          · rintro ⟨hmem, _⟩
            exact hmem
      refine ⟨top, rest, rfl, hq, hempty, ?_, ?_⟩
      · dsimp only
        rw [hQ top, if_pos rfl]
      · unfold QWF
        dsimp only
        refine ⟨?_, ?_, ?_, ?_, ?_, ?_, ?_, ?_⟩
        · intro p hp
          rw [hQ p]
          by_cases hpp : p = top
          · rw [if_pos hpp]
            exact hrestnd
          · rw [if_neg hpp]
            rw [hlen] at hp
            exact hnd p hp
        · intro p hp q hqx hpq idx hidx hidq
          rw [hlen] at hp hqx
          rw [hQ p] at hidx
          rw [hQ q] at hidq
          have hidx' : idx ∈ pq.queues.getD p [] := by
            by_cases hpp : p = top
            · rw [if_pos hpp] at hidx
              rw [hpp, hq]
              exact List.mem_cons_of_mem id hidx
            · rw [if_neg hpp] at hidx
              exact hidx
          have hidq' : idx ∈ pq.queues.getD q [] → False := by
            intro hmemq
            exact hdisj p hp q hqx hpq idx hidx' hmemq
          by_cases hqq : q = top
          · rw [if_pos hqq] at hidq
            exact hidq' (by
              rw [hqq, hq]
              exact List.mem_cons_of_mem id hidq)
          · rw [if_neg hqq] at hidq
            exact hidq' hidq
        · intro idx hidx
          rw [List.Nodup.mem_erase_iff hndp] at hidx
          obtain ⟨hne, hmem⟩ := hidx
          obtain ⟨p, hp, hmemp⟩ := hps idx hmem
          refine ⟨p, by omega, ?_⟩
          rw [hQ p]
          by_cases hpp : p = top
          · rw [if_pos hpp]
            rw [hpp, hq] at hmemp
            rcases List.mem_cons.mp hmemp with hx | hx
            · exact absurd hx hne
            · exact hx
          · rw [if_neg hpp]
            exact hmemp
        · intro p hp idx hidx
          rw [hlen] at hp
          rw [hQ p] at hidx
          have hidx' : idx ∈ pq.queues.getD p [] := by
            by_cases hpp : p = top
            · rw [if_pos hpp] at hidx
              rw [hpp, hq]
              exact List.mem_cons_of_mem id hidx
            · rw [if_neg hpp] at hidx
              exact hidx
          have hmem := hsp p hp idx hidx'
          rw [List.Nodup.mem_erase_iff hndp]
          refine ⟨?_, hmem⟩
          intro heq
          subst heq
          by_cases hpp : p = top
          · rw [if_pos hpp] at hidx
            exact hidrest hidx
          · rw [if_neg hpp] at hidx
            exact hdisj p hp top htoplt hpp idx hidx
              (by rw [hq]; exact List.mem_cons_self idx rest)
        · intro p hp
          rw [hP p] at hp
          obtain ⟨hmem, hcond⟩ := hp
          obtain ⟨hlt, hne⟩ := hpm p hmem
          refine ⟨by omega, ?_⟩
          rw [hQ p]
          by_cases hpp : p = top
          · rw [if_pos hpp]
            intro hre
            exact (hcond hre) hpp
          · rw [if_neg hpp]
            exact hne
        · intro p hp hne
          rw [hlen] at hp
          rw [hQ p] at hne
          rw [hP p]
          by_cases hpp : p = top
          · rw [if_pos hpp] at hne
            subst hpp
            refine ⟨htopmem, ?_⟩
            intro hre
            exact absurd hre hne
          · rw [if_neg hpp] at hne
            exact ⟨hmp p hp hne, fun _ => hpp⟩
        · exact List.Nodup.erase id hndp
        · by_cases hre : rest = []
          · rw [if_pos ((isEmpty_iff_nil _).mpr hre)]
            unfold heapPopMin
            rw [hm]
            exact List.Nodup.erase top hndr
          · rw [if_neg (fun h => hre ((isEmpty_iff_nil _).mp h))]
            exact hndr

/-- C9: under the queue well-formedness invariant (each propagator present
at most once, set and heap in sync with the queues), enqueue of an
already-enqueued propagator leaves the queue unchanged, enqueue of a fresh
propagator appends it to the back of its priority queue and preserves the
invariant, and pop returns the front of the queue of the lowest nonempty
priority (FIFO within a priority, ascending priority order) and preserves
the invariant. -/
theorem C9_propagator_queue_at_most_once (pq : PropagatorQueue)
    (hI : QWF pq) :
    (∀ id prio, is_propagator_enqueued pq id = true →
      enqueue_propagator pq id prio = pq) ∧
    (∀ id prio, prio < pq.queues.length →
      is_propagator_enqueued pq id = false →
      (enqueue_propagator pq id prio).queues.getD prio [] =
        pq.queues.getD prio [] ++ [id] ∧
      QWF (enqueue_propagator pq id prio)) ∧
    (∀ id pq', queuePop pq = some (id, pq') →
      ∃ top rest,
        heapMin pq.present_priorities = some top ∧
        pq.queues.getD top [] = id :: rest ∧
        (∀ p, p < top → pq.queues.getD p [] = []) ∧
        pq'.queues.getD top [] = rest ∧
        QWF pq') := by
  refine ⟨?_, ?_, ?_⟩
  · intro id prio hpres
    rw [enqueue_propagator, if_pos hpres]
  · intro id prio hlt hfresh
    exact enqueue_fresh_spec pq id prio hI hlt hfresh
  · intro id pq' hpop
    exact pop_spec pq hI id pq' hpop

/-- Witness for C9 at a three-priority queue holding propagators 3 and 5. -/
theorem C9_propagator_queue_at_most_once_witness :
    (∀ id prio,
      is_propagator_enqueued ⟨[[], [3], [5]], [3, 5], [1, 2]⟩ id = true →
      enqueue_propagator ⟨[[], [3], [5]], [3, 5], [1, 2]⟩ id prio =
        ⟨[[], [3], [5]], [3, 5], [1, 2]⟩) ∧
    (∀ id prio,
      prio < (PropagatorQueue.mk [[], [3], [5]] [3, 5] [1, 2]).queues.length →
      is_propagator_enqueued ⟨[[], [3], [5]], [3, 5], [1, 2]⟩ id = false →
      (enqueue_propagator ⟨[[], [3], [5]], [3, 5], [1, 2]⟩ id
          prio).queues.getD prio [] =
        (PropagatorQueue.mk [[], [3], [5]] [3, 5] [1, 2]).queues.getD prio []
          ++ [id] ∧
      QWF (enqueue_propagator ⟨[[], [3], [5]], [3, 5], [1, 2]⟩ id prio)) ∧
    (∀ id pq', queuePop ⟨[[], [3], [5]], [3, 5], [1, 2]⟩ = some (id, pq') →
      ∃ top rest,
        heapMin (PropagatorQueue.mk [[], [3], [5]] [3, 5]
          [1, 2]).present_priorities = some top ∧
        (PropagatorQueue.mk [[], [3], [5]] [3, 5] [1, 2]).queues.getD top []
          = id :: rest ∧
        (∀ p, p < top →
          (PropagatorQueue.mk [[], [3], [5]] [3, 5] [1, 2]).queues.getD p []
            = []) ∧
        pq'.queues.getD top [] = rest ∧
        QWF pq') :=
  C9_propagator_queue_at_most_once ⟨[[], [3], [5]], [3, 5], [1, 2]⟩
    (by decide)

end Pumpkin
